import Mathlib

/-!
Verification development for the citation-manager core
(`citation_manager.py`): the bibliographic `Citation` record, the
BibTeX codec (`_generate_basic_bibtex` / `create_citation_from_bibtex`),
URL verification (`verify_url` / `verify_citation`), deduplication
(`deduplicate_citations` / `_citation_completeness`) and the
verification report (`get_verification_report`).

Strings are modelled as Lean `String` (a wrapper around `List Char`);
the Python string primitives used by the code (`strip`, `rstrip`,
`split`, `join`, `lower`, `int(...)`) are given explicit executable
models below.  Network traffic is modelled by an oracle mapping the
attempt index to `none` (transport failure / timeout, i.e. a raised
`requests.RequestException`) or `some status` (a server response with
that status code).  The current clock is passed as a parameter.
-/

/-! ## Python string primitives -/

/-- Python whitespace for `str.strip` (ASCII portion). -/
def isPyWs (c : Char) : Bool :=
  c == ' ' || c == '\t' || c == '\n' || c == '\r' || c == '\x0b' || c == '\x0c'

/-- Drop matching characters from the right end. -/
def dropEndWhile (p : Char → Bool) (l : List Char) : List Char :=
  (l.reverse.dropWhile p).reverse

/-- `str.strip(chars)` with an arbitrary character class. -/
def stripChars (p : Char → Bool) (l : List Char) : List Char :=
  dropEndWhile p (l.dropWhile p)

/-- `str.strip()`. -/
def pyStripL (l : List Char) : List Char := stripChars isPyWs l

def isBrace (c : Char) : Bool := c == '\x7b' || c == '\x7d'

def isQuote (c : Char) : Bool := c == '"'

def isComma (c : Char) : Bool := c == ','

/-- Position of the first occurrence of `sep`: the part before it and the
part after it, or `none` when `sep` does not occur (Python `str.find`). -/
def findSep (sep : List Char) : List Char → Option (List Char × List Char)
  | [] => none
  | c :: cs =>
    if sep.isPrefixOf (c :: cs) then some ([], (c :: cs).drop sep.length)
    else
      match findSep sep cs with
      | none => none
      | some (b, a) => some (c :: b, a)

/-- Fueled worker for `str.split(sep)`. -/
def splitSepF (sep : List Char) : Nat → List Char → List (List Char)
  | 0, l => [l]
  | Nat.succ fuel, l =>
    match findSep sep l with
    | none => [l]
    | some (b, a) => b :: splitSepF sep fuel a

/-- Python `str.split(sep)` (non-empty separator). -/
def pySplitSep (sep : List Char) (l : List Char) : List (List Char) :=
  splitSepF sep (l.length + 1) l

/-- Python `sep.join(parts)`. -/
def joinSep (sep : List Char) : List (List Char) → List Char
  | [] => []
  | [x] => x
  | x :: y :: rest => x ++ sep ++ joinSep sep (y :: rest)

/-- `text.split('\n')`. -/
def splitLines (l : List Char) : List (List Char) := pySplitSep ['\n'] l

/-- `str.lower()` (character-wise). -/
def pyLowerL (l : List Char) : List Char := l.map Char.toLower

/-- Fueled decimal digit expansion of a natural number. -/
def natDigitsF : Nat → Nat → List Char
  | 0, _ => []
  | Nat.succ fuel, n =>
    if n < 10 then [Nat.digitChar n]
    else natDigitsF fuel (n / 10) ++ [Nat.digitChar (n % 10)]

/-- Decimal digits of a natural number (Python `str(n)` for `n ≥ 0`). -/
def natDigits (n : Nat) : List Char := natDigitsF (n + 1) n

/-- Python `str(y)` for an integer. -/
def intRepr (y : Int) : List Char :=
  if y < 0 then '-' :: natDigits y.natAbs else natDigits y.toNat

/-- Digit-run value parser used by `pyIntL`. -/
def parseNatDigits (l : List Char) : Option Nat :=
  if l ≠ [] ∧ l.all Char.isDigit then
    some (l.foldl (fun a c => a * 10 + (c.toNat - 48)) 0)
  else none

/-- Python `int(s)`: optional surrounding whitespace, optional sign, a
non-empty digit run (numeric-literal underscores are not modelled).
`none` models the raised `ValueError`. -/
def pyIntL (l : List Char) : Option Int :=
  match pyStripL l with
  | [] => none
  | c :: rest =>
    if c = '-' then (parseNatDigits rest).map (fun n => -(n : Int))
    else if c = '+' then (parseNatDigits rest).map (fun n => (n : Int))
    else (parseNatDigits (c :: rest)).map (fun n => (n : Int))

/-! ## Data model: the `Citation` dataclass -/

/-- The `Citation` dataclass of `citation_manager.py`: one bibliographic
entry with verification state.  Optional string fields model
`Optional[str] = None`, optional int fields `Optional[int] = None`. -/
structure Citation where
  citekey : String
  title : String
  authors : List String
  year : Int
  journal : Option String := none
  ads_bibcode : Option String := none
  doi : Option String := none
  arxiv_id : Option String := none
  ads_url : Option String := none
  publisher_url : Option String := none
  last_verified : Option String := none
  http_status_ads : Option Int := none
  http_status_doi : Option Int := none
  crossref_match : Bool := false
  ads_match : Bool := false
  notes : String := ""
  bibtex_entry : String := ""
deriving DecidableEq, Repr

/-- Python truthiness of an `Optional[str]` field: `None` and `""` are
falsy, everything else truthy. -/
def truthyOpt (o : Option String) : Bool := !(o.getD "").isEmpty

/-! ## Codec: `_generate_basic_bibtex` -/

/-- The separator `" and "` used for the author list. -/
def sepAnd : List Char := [' ', 'a', 'n', 'd', ' ']

/-- `" and ".join(citation.authors)`. -/
def joinAnd (authors : List String) : List Char :=
  joinSep sepAnd (authors.map String.data)

/-- Fallback ADS URL built from the bibcode. -/
def adsDefaultUrl (c : Citation) : List Char :=
  "https://ui.adsabs.harvard.edu/abs/".data ++ (c.ads_bibcode.getD "").data

/-- `citation.ads_url or "https://ui.adsabs.harvard.edu/abs/" + citation.ads_bibcode`. -/
def adsUrlValue (c : Citation) : List Char :=
  if truthyOpt c.ads_url then (c.ads_url.getD "").data else adsDefaultUrl c

/-- One `key={value},` line of the generated entry. -/
def fieldLine (key : List Char) (value : List Char) : List Char :=
  [' ', ' '] ++ key ++ '=' :: '\x7b' :: value ++ ['\x7d', ',']

/-- The `@<kind>{<citekey>,` opening line. -/
def openingLine (c : Citation) : List Char :=
  '@' :: (if truthyOpt c.journal then "article".data else "misc".data)
    ++ '\x7b' :: c.citekey.data ++ [',']

/-- The conditionally emitted optional-field lines, in source order. -/
def optLines (c : Citation) : List (List Char) :=
  (if truthyOpt c.journal then [fieldLine "journal".data (c.journal.getD "").data] else [])
  ++ (if truthyOpt c.doi then [fieldLine "doi".data (c.doi.getD "").data] else [])
  ++ (if truthyOpt c.arxiv_id then
        [fieldLine "eprint".data (c.arxiv_id.getD "").data,
         fieldLine "archivePrefix".data "arXiv".data] else [])
  ++ (if truthyOpt c.ads_bibcode then [fieldLine "adsurl".data (adsUrlValue c)] else [])
  ++ (if truthyOpt c.publisher_url then [fieldLine "url".data (c.publisher_url.getD "").data] else [])

/-- The list of lines emitted by `_generate_basic_bibtex`: the opening
line, the three required field lines, the optional lines, and the
closing brace. -/
def generateLines (c : Citation) : List (List Char) :=
  openingLine c
    :: fieldLine "title".data c.title.data
    :: fieldLine "author".data (joinAnd c.authors)
    :: fieldLine "year".data (intRepr c.year)
    :: (optLines c ++ [['\x7d']])

/-- `CitationManager._generate_basic_bibtex`: `"\n".join(lines)`. -/
def _generate_basic_bibtex (c : Citation) : String :=
  ⟨joinSep ['\n'] (generateLines c)⟩

/-- The per-entry text written by `CitationManager.generate_bibtex`: the
cached `bibtex_entry` verbatim when non-empty, otherwise the freshly
generated basic entry. -/
def generateEntry (c : Citation) : String :=
  if !c.bibtex_entry.isEmpty then c.bibtex_entry else _generate_basic_bibtex c

/-! ## Codec: `create_citation_from_bibtex` -/

/-- The modelled `re.match(r'@\w+\{([^,]+),', lines[0])`: `@`, a greedy
non-empty run of word characters, `{`, a greedy non-empty run of
non-comma characters (the citekey), then `,`. -/
def matchCitekey (line : List Char) : Option (List Char) :=
  match line with
  | '@' :: rest =>
    let kind := rest.takeWhile (fun c => c.isAlphanum || c == '_')
    if kind.isEmpty then none
    else
      match rest.drop kind.length with
      | '\x7b' :: rest2 =>
        let ck := rest2.takeWhile (fun c => !(c == ','))
        if ck.isEmpty then none
        else
          match rest2.drop ck.length with
          | ',' :: _ => some ck
          | _ => none
      | _ => none
  | _ => none

/-- The accumulating field state of the parser's line loop. -/
structure BibFields where
  title : List Char
  authors : List (List Char)
  year : Int
  journal : Option (List Char)
  doi : Option (List Char)
  arxiv_id : Option (List Char)
deriving DecidableEq, Repr

def initFields : BibFields := ⟨[], [], 0, none, none, none⟩

/-- `line.strip().rstrip(',')`. -/
def cleanLine (line : List Char) : List Char :=
  dropEndWhile isComma (pyStripL line)

/-- The key part of a field line: `line.split('=', 1)[0].strip()`. -/
def lineKey (line : List Char) : List Char :=
  pyStripL ((cleanLine line).takeWhile (fun c => !(c == '=')))

/-- The value part of a field line:
`line.split('=', 1)[1].strip().strip('{}').strip('"')`. -/
def lineValue (line : List Char) : List Char :=
  stripChars isQuote (stripChars isBrace
    (pyStripL (((cleanLine line).dropWhile (fun c => !(c == '='))).drop 1)))

/-- One iteration of the field-extraction loop of
`create_citation_from_bibtex`. -/
def processLine (f : BibFields) (line : List Char) : BibFields :=
  if '=' ∈ cleanLine line then
    let key := lineKey line
    let value := lineValue line
    if key = "title".data then { f with title := value }
    else if key = "author".data then
      { f with authors := (pySplitSep sepAnd value).map pyStripL }
    else if key = "year".data then
      match pyIntL value with
      | some n => { f with year := n }
      | none => f
    else if key = "journal".data then { f with journal := some value }
    else if key = "doi".data then { f with doi := some value }
    else if key = "eprint".data then { f with arxiv_id := some value }
    else f
  else f

/-- `create_citation_from_bibtex`: parse one BibTeX entry block into a
`Citation`, or fail with `none`.  On success the raw input text is
stored verbatim in `bibtex_entry`. -/
def create_citation_from_bibtex (bibtex_entry : String) : Option Citation :=
  match splitLines (pyStripL bibtex_entry.data) with
  | [] => none
  | l0 :: rest =>
    match matchCitekey l0 with
    | none => none
    | some ck =>
      let f := rest.foldl processLine initFields
      if ck.isEmpty || f.title.isEmpty || f.authors.isEmpty || f.year == 0 then none
      else
        some {
          citekey := ⟨ck⟩
          title := ⟨f.title⟩
          authors := f.authors.map (fun a => (⟨a⟩ : String))
          year := f.year
          journal := f.journal.map (fun j => (⟨j⟩ : String))
          doi := f.doi.map (fun d => (⟨d⟩ : String))
          arxiv_id := f.arxiv_id.map (fun a => (⟨a⟩ : String))
          bibtex_entry := bibtex_entry }

/-! ## Deduplication -/

/-- `CitationManager._citation_completeness`. -/
def _citation_completeness (c : Citation) : Nat :=
  (if truthyOpt c.ads_bibcode then 3 else 0)
  + (if truthyOpt c.doi then 2 else 0)
  + (if truthyOpt c.arxiv_id then 1 else 0)
  + (if truthyOpt c.journal then 1 else 0)
  + (if !c.bibtex_entry.isEmpty then 2 else 0)

/-- The dedup equality key: `(citation.title.lower().strip(), citation.year)`. -/
def eqKeyOf (c : Citation) : List Char × Int :=
  (pyStripL (pyLowerL c.title.data), c.year)

/-- The store: a `citekey → Citation` mapping as an insertion-ordered
association list (Python dicts preserve insertion order). -/
abbrev Store := List (String × Citation)

/-- Dictionary lookup `d.get(k)` / `d[k]`. -/
def lookupA (store : Store) (k : String) : Option Citation :=
  (store.find? (fun p => p.1 = k)).map (fun p => p.2)

/-- `del d[k]`. -/
def eraseKey (store : Store) (k : String) : Store :=
  store.filter (fun p => ¬(p.1 = k))

/-- The running state of `deduplicate_citations`: the live store, the
`seen` map from equality key to the kept citekey, and the removed list. -/
structure DedupState where
  store : Store
  seen : List ((List Char × Int) × String)
  dups : List String
deriving Repr

/-- `seen.get(key)`. -/
def seenLookup (seen : List ((List Char × Int) × String)) (k : List Char × Int) :
    Option String :=
  (seen.find? (fun p => p.1 = k)).map (fun p => p.2)

/-- `seen[key] = citekey` (dictionary assignment: replaces any existing
binding). -/
def seenInsert (seen : List ((List Char × Int) × String)) (k : List Char × Int)
    (v : String) : List ((List Char × Int) × String) :=
  (k, v) :: seen.filter (fun p => ¬(p.1 = k))

/-- One iteration of the loop of `deduplicate_citations`, processing one
`(citekey, citation)` item of the snapshot. -/
def dedupStep (st : DedupState) (item : String × Citation) : DedupState :=
  let key := eqKeyOf item.2
  match seenLookup st.seen key with
  | none => { st with seen := seenInsert st.seen key item.1 }
  | some prevKey =>
    match lookupA st.store prevKey with
    | none => st  -- unreachable for a store invariant state (Python would raise KeyError)
    | some existing =>
      if _citation_completeness item.2 > _citation_completeness existing then
        { store := eraseKey st.store prevKey
          seen := seenInsert st.seen key item.1
          dups := st.dups ++ [prevKey] }
      else
        { store := eraseKey st.store item.1
          seen := st.seen
          dups := st.dups ++ [item.1] }

/-- `CitationManager.deduplicate_citations`: iterates over a snapshot of
the store's items, returning the final store and the removed citekeys. -/
def deduplicate_citations (store : Store) : Store × List String :=
  let final := store.foldl dedupStep ⟨store, [], []⟩
  (final.store, final.dups)

/-! ## Verification engine -/

/-- A network oracle: maps the attempt index to `none` (transport failure,
i.e. `requests.RequestException`) or `some status` (a server response). -/
abbrev Net := Nat → Option Int

/-- The retry loop body of `verify_url`, iterating over the attempt
indices of `range(max_retries)`. -/
def verifyLoop (net : Net) (max_retries : Nat) : List Nat → Bool × Int
  | [] => (false, 0)
  | a :: rest =>
    match net a with
    | some status => (status == 200, status)
    | none =>
      if a = max_retries - 1 then (false, 0)
      else verifyLoop net max_retries rest

/-- `CitationManager.verify_url`: HEAD the URL up to `max_retries` times;
a response returns `(status == 200, status)` immediately; exhausting all
retries on transport failures returns `(False, 0)`. -/
def verify_url (max_retries : Nat) (net : Net) : Bool × Int :=
  verifyLoop net max_retries (List.range max_retries)

/-- Number of network attempts `verify_url` performs. -/
def verifyLoopCount (net : Net) (max_retries : Nat) : List Nat → Nat
  | [] => 0
  | a :: rest =>
    match net a with
    | some _ => 1
    | none =>
      if a = max_retries - 1 then 1
      else 1 + verifyLoopCount net max_retries rest

/-- Number of network attempts a `verify_url` call performs. -/
def verify_url_attempts (max_retries : Nat) (net : Net) : Nat :=
  verifyLoopCount net max_retries (List.range max_retries)

/-- The report returned by `verify_citation`: either the not-found error
dict or the three result booleans. -/
inductive VReport where
  | notFound
  | found (ads_url_valid doi_url_valid metadata_complete : Bool)
deriving DecidableEq, Repr

/-- Replace the value stored under `k` (in-place record mutation of the
dict entry). -/
def updateA (store : Store) (k : String) (c : Citation) : Store :=
  store.map (fun p => if p.1 = k then (k, c) else p)

/-- The "Verify ADS URL" block of `verify_citation`: when `ads_url` is
truthy, call `verify_url` and store the status into `http_status_ads`. -/
def adsCheck (max_retries : Nat) (net : Net) (citation : Citation) : Bool × Citation :=
  if truthyOpt citation.ads_url then
    ((verify_url max_retries net).1,
     { citation with http_status_ads := some (verify_url max_retries net).2 })
  else (false, citation)

/-- The "Verify DOI URL" block of `verify_citation`: when `doi` is
truthy, synthesize the resolver URL, call `verify_url`, store the status
into `http_status_doi` and overwrite `publisher_url`. -/
def doiCheck (max_retries : Nat) (net : Net) (c1 : Citation) : Bool × Citation :=
  if truthyOpt c1.doi then
    ((verify_url max_retries net).1,
     { c1 with http_status_doi := some (verify_url max_retries net).2,
               publisher_url := some ("https://doi.org/" ++ c1.doi.getD "") })
  else (false, c1)

/-- The `metadata_complete` conjunction of `verify_citation`. -/
def metadataComplete (citation : Citation) : Bool :=
  !citation.title.isEmpty && !citation.authors.isEmpty
    && !(citation.year == 0) && !citation.citekey.isEmpty

/-- `CitationManager.verify_citation`: verify one citation's URLs,
mutating its verification fields (the ADS block, then the DOI block,
then the unconditional `last_verified` stamp).  `netAds`/`netDoi` are
the network oracles of the two potential `verify_url` calls, `now` the
value of `datetime.utcnow().isoformat()`. -/
def verify_citation (max_retries : Nat) (netAds netDoi : Net) (now : String)
    (store : Store) (citekey : String) : Store × VReport :=
  match lookupA store citekey with
  | none => (store, VReport.notFound)
  | some citation =>
    (updateA store citekey
      { (doiCheck max_retries netDoi (adsCheck max_retries netAds citation).2).2 with
          last_verified := some now },
     VReport.found (adsCheck max_retries netAds citation).1
       (doiCheck max_retries netDoi (adsCheck max_retries netAds citation).2).1
       (metadataComplete citation))

/-! ## Verification report -/

/-- The dict returned by `get_verification_report`.  The percentage is a
Python float; it is modelled as a rational (the claims only exercise the
guarded `total = 0` branch and exact counts). -/
structure VerificationReport where
  total_citations : Nat
  verified_count : Nat
  ads_urls_valid : Nat
  doi_urls_valid : Nat
  verification_percentage : Rat
deriving DecidableEq, Repr

/-- `CitationManager.get_verification_report`. -/
def get_verification_report (store : Store) : VerificationReport :=
  let total := store.length
  let verified := (store.filter (fun p => truthyOpt p.2.last_verified)).length
  let ads_valid := (store.filter (fun p => p.2.http_status_ads == some 200)).length
  let doi_valid := (store.filter (fun p => p.2.http_status_doi == some 200)).length
  { total_citations := total
    verified_count := verified
    ads_urls_valid := ads_valid
    doi_urls_valid := doi_valid
    verification_percentage :=
      if total > 0 then (verified : Rat) / (total : Rat) * 100 else 0 }

/-! ## Derived notions used to state the claims -/

/-- An HTTP success-class (2xx) status, as the spec's "success status"
reads in HTTP terms. -/
def successClass (s : Int) : Bool := 200 ≤ s && s < 300

/-- First line of the (stripped) parse input. -/
def firstLineOf (s : String) : List Char := (splitLines (pyStripL s.data)).headD []

/-- Remaining lines of the (stripped) parse input. -/
def restLinesOf (s : String) : List (List Char) := (splitLines (pyStripL s.data)).tail

/-- A character that the parser's `strip('{}').strip('"')` chain never
eats: neither a brace nor a quote. -/
def edgeOkChar (c : Char) : Bool := !isBrace c && !isQuote c

/-- First character of `l` is edge-safe (vacuous for empty `l`). -/
def headOkB (l : List Char) : Bool :=
  match l with
  | [] => true
  | c :: _ => edgeOkChar c

/-- Last character of `l` is edge-safe (vacuous for empty `l`). -/
def lastOkB (l : List Char) : Bool := headOkB l.reverse

/-- One author value survives the interchange round trip: it does not
contain the `" and "` separator, does not end in `" and"` (which would
merge with the following separator), is newline-free, and equals its
own strip (the parser strips each split author, so leading or trailing
whitespace would be lost). -/
def authorOkB (a : String) : Bool :=
  !(a.data.contains '\n') && !(decide (sepAnd <:+: a.data))
    && !(decide (" and".data <:+ a.data))
    && decide (pyStripL a.data = a.data)

/-- An optional field's emitted value is newline-free. -/
def optNoNl (o : Option String) : Bool := !((o.getD "").data.contains '\n')

/-- Interchange-safety: the well-formedness a `Citation` needs for
`create_citation_from_bibtex` to recover `citekey`, `title`, `authors`
and `year` from its generated entry: the required fields are non-falsy,
no emitted value contains a newline, the citekey is comma-free, title
and author-list ends avoid the brace/quote characters the parser strips,
and no author collides with the `" and "` separator. -/
def interchangeSafe (c : Citation) : Bool :=
  !c.citekey.isEmpty && !(c.citekey.data.contains ',') && !(c.citekey.data.contains '\n')
    && !c.title.isEmpty && !(c.title.data.contains '\n')
    && headOkB c.title.data && lastOkB c.title.data
    && !c.authors.isEmpty && c.authors.all authorOkB
    && headOkB (joinAnd c.authors) && lastOkB (joinAnd c.authors)
    && !(c.year == 0)
    && optNoNl c.journal && optNoNl c.doi && optNoNl c.arxiv_id
    && optNoNl c.ads_bibcode && optNoNl c.ads_url && optNoNl c.publisher_url

/-! ## Dedup analysis: the left-to-right running best of a duplicate class -/

/-- The comparison `deduplicate_citations` applies to a new arrival and
the kept record of its equality class: the arrival wins only on a
strictly greater completeness score. -/
def pick (m e : String × Citation) : String × Citation :=
  if _citation_completeness e.2 > _citation_completeness m.2 then e else m

/-- Running best of a scan, seeded with `a`. -/
def runBest (a : String × Citation) (l : List (String × Citation)) : String × Citation :=
  l.foldl pick a

/-- All items of `S` sharing the equality key `κ`, in store order. -/
def classOf (S : Store) (κ : List Char × Int) : Store :=
  S.filter (fun e => eqKeyOf e.2 = κ)

/-- The item of `S`'s class of `κ` that the scan keeps: the leftmost
maximal-score member. -/
def leftBest (S : Store) (κ : List Char × Int) : Option (String × Citation) :=
  match classOf S κ with
  | [] => none
  | e :: es => some (runBest e es)

/-- `e` survives deduplication of `S`: it is the scan's kept member of
its own equality class. -/
def survivesIn (S : Store) (e : String × Citation) : Bool :=
  ((leftBest S (eqKeyOf e.2)).map (fun p => p.1)) == some e.1

/-! ## Concrete records used by witnesses and counterexamples -/

/-- The Tully–Fisher record of the spec's §8 scenario. -/
def tullyRec : Citation := {
  citekey := "tully1977new"
  title := "A New Method of Determining Distances to Galaxies"
  authors := ["R. Brent Tully", "J. Richard Fisher"]
  year := 1977
  journal := some "Astronomy and Astrophysics"
  ads_bibcode := some "1977A\x26A....54..661T" }

/-- The text generated for `tullyRec` (it has no cached entry). -/
def tullyText : String := generateEntry tullyRec

/-- The record `create_citation_from_bibtex` returns for `tullyText`. -/
def tullyParsed : Citation := {
  citekey := "tully1977new"
  title := "A New Method of Determining Distances to Galaxies"
  authors := ["R. Brent Tully", "J. Richard Fisher"]
  year := 1977
  journal := some "Astronomy and Astrophysics"
  bibtex_entry := tullyText }

/-- A record that is valid in the claims' sense (non-empty citekey,
title, authors, non-zero year) but whose title ends in a brace the
parser strips. -/
def braceTitleRec : Citation := {
  citekey := "brace1"
  title := "a\x7d"
  authors := ["A"]
  year := 2001 }

/-- A record with an empty title: `_generate_basic_bibtex` still emits a
`title={}` line, which the parser reads back as an empty title. -/
def emptyTitleRec : Citation := {
  citekey := "k"
  title := ""
  authors := ["A"]
  year := 2000 }

/-- A record carrying only a DOI, for the verification witnesses. -/
def doiOnlyRec : Citation := {
  citekey := "d1"
  title := "T"
  authors := ["A"]
  year := 2002
  doi := some "10.1000/xyz"
  publisher_url := some "http://old.example.org" }

/-- Two-record store with duplicate titles for the dedup witnesses:
score 5 (bibcode 3 + doi 2) versus score 3 (bibcode 3). -/
def dupA : Citation := {
  citekey := "a1", title := "Same Work", authors := ["A"], year := 1999
  ads_bibcode := some "B1", doi := some "10.1/d" }

/-- The lower-scoring duplicate of `dupA` (title differs only by case
and surrounding whitespace). -/
def dupB : Citation := {
  citekey := "b1", title := "  same work ", authors := ["B"], year := 1999
  ads_bibcode := some "B2" }

set_option maxRecDepth 10000

/-! # Helper lemmas: the retry loop -/

theorem verifyLoop_all_none (net : Net) (mr : Nat) (l : List Nat)
    (h : ∀ a ∈ l, net a = none) : verifyLoop net mr l = (false, 0) := by
  induction l with
  | nil => rfl
  | cons a rest ih =>
    have ha := h a (List.mem_cons_self a rest)
    simp only [verifyLoop, ha]
    by_cases hm : a = mr - 1
    · simp [hm]
    · simp [hm, ih (fun x hx => h x (List.mem_cons_of_mem a hx))]

theorem verifyLoopCount_le (net : Net) (mr : Nat) (l : List Nat) :
    verifyLoopCount net mr l ≤ l.length := by
  induction l with
  | nil => simp [verifyLoopCount]
  | cons a rest ih =>
    simp only [verifyLoopCount]
    cases net a with
    | some s => simp
    | none =>
      by_cases hm : a = mr - 1
      · simp [hm]
      · simp only [if_neg hm, List.length_cons]
        omega

theorem verifyLoopCount_all_none (net : Net) (mr : Nat) :
    ∀ len s, 1 ≤ len → s + len = mr → (∀ a, a < mr → net a = none) →
    verifyLoopCount net mr (List.range' s len) = len := by
  intro len
  induction len with
  | zero => omega
  | succ n ih =>
    intro s h1 h2 hnet
    rw [List.range'_succ]
    have hs : net s = none := hnet s (by omega)
    simp only [verifyLoopCount, hs]
    by_cases hm : s = mr - 1
    · have hn0 : n = 0 := by omega
      subst hn0
      simp [hm]
    · have hn : 1 ≤ n := by omega
      rw [if_neg hm, ih (s + 1) hn (by omega) hnet]
      omega

theorem verifyLoop_found (net : Net) (mr : Nat) (j : Nat) (s : Int)
    (hj : j < mr) (hs : net j = some s) (hbefore : ∀ i, i < j → net i = none) :
    ∀ d i, i + d = j →
      verifyLoop net mr (List.range' i (mr - i)) = ((s == 200 : Bool), s)
      ∧ verifyLoopCount net mr (List.range' i (mr - i)) = d + 1 := by
  intro d
  induction d with
  | zero =>
    intro i hi
    have hij : i = j := by omega
    subst hij
    have hlen : mr - i = (mr - i - 1) + 1 := by omega
    rw [hlen, List.range'_succ]
    constructor
    · simp only [verifyLoop, hs]
    · simp only [verifyLoopCount, hs]
  | succ n ih =>
    intro i hi
    have hij : i < j := by omega
    have hlen : mr - i = (mr - (i + 1)) + 1 := by omega
    rw [hlen, List.range'_succ]
    have hni : net i = none := hbefore i hij
    have him : ¬(i = mr - 1) := by omega
    constructor
    · simp only [verifyLoop, hni, if_neg him]
      exact (ih (i + 1) (by omega)).1
    · simp only [verifyLoopCount, hni, if_neg him]
      rw [(ih (i + 1) (by omega)).2]
      omega

/-! # Claims C4, C5, C10 -/

/-- Claim C4: `verify_url` makes at most `max_retries` network attempts;
every attempt that hits a transport fault consumes one retry, and after
`max_retries` consecutive transport failures it returns `(false, 0)`
having used exactly `max_retries` attempts; if some attempt gets a
server response, it returns on that attempt without exhausting the
remaining retries.  Transport failures are absorbed by the loop (the
model is a total function), never surfaced as an exception. -/
theorem verify_url_retry_contract (mr : Nat) (net : Net) :
    verify_url_attempts mr net ≤ mr
    ∧ ((∀ i, i < mr → net i = none) →
        verify_url mr net = (false, 0) ∧ verify_url_attempts mr net = mr)
    ∧ (∀ j s, j < mr → net j = some s → (∀ i, i < j → net i = none) →
        verify_url mr net = ((s == 200 : Bool), s)
          ∧ verify_url_attempts mr net = j + 1) := by
  refine ⟨?_, ?_, ?_⟩
  · have h := verifyLoopCount_le net mr (List.range mr)
    simpa [verify_url_attempts] using h
  · intro h
    constructor
    · exact verifyLoop_all_none net mr _ (fun a ha => h a (List.mem_range.mp ha))
    · rcases Nat.eq_zero_or_pos mr with h0 | hpos
      · subst h0; rfl
      · have h2 := verifyLoopCount_all_none net mr mr 0 hpos (by omega) h
        simpa [verify_url_attempts, List.range_eq_range'] using h2
  · intro j s hj hs hb
    have h := verifyLoop_found net mr j s hj hs hb j 0 (by omega)
    constructor
    · have h1 := h.1
      rw [verify_url, List.range_eq_range']
      simpa using h1
    · have h2 := h.2
      rw [verify_url_attempts, List.range_eq_range']
      simpa using h2

/-- Witness for C4: three consecutive transport failures with
`max_retries = 3` give `(false, 0)` after exactly 3 attempts. -/
theorem verify_url_retry_contract_witness :
    verify_url 3 (fun _ => none) = (false, 0)
      ∧ verify_url_attempts 3 (fun _ => none) = 3 :=
  (verify_url_retry_contract 3 (fun _ => none)).2.1 (fun _ _ => rfl)

/-- Claim C5 as stated is false: a 204 No Content response is in the
HTTP success class, yet `verify_url` reports it as not live, because the
code tests `status_code == 200` exactly. -/
theorem verify_url_success_class_counterexample :
    ¬(((verify_url 3 (fun _ => some 204)).1 = true) ↔ successClass 204 = true) := by
  decide

/-- Claim C5 (amended): when the server responds with status `s`,
`verify_url` returns `(s == 200, s)`: `isLive` is true exactly when the
status equals 200 (not merely success-class), and any other status is
reported as `(false, s)`. -/
theorem verify_url_status_exact (mr : Nat) (net : Net) (j : Nat) (s : Int)
    (hj : j < mr) (hs : net j = some s) (hb : ∀ i, i < j → net i = none) :
    verify_url mr net = ((s == 200 : Bool), s)
      ∧ ((verify_url mr net).1 = true ↔ s = 200)
      ∧ (¬(s = 200) → verify_url mr net = (false, s)) := by
  have h := (verifyLoop_found net mr j s hj hs hb j 0 (by omega)).1
  have hv : verify_url mr net = ((s == 200 : Bool), s) := by
    rw [verify_url, List.range_eq_range']
    simpa using h
  refine ⟨hv, ?_, ?_⟩
  · rw [hv]
    simp
  · intro hne
    rw [hv]
    simp [hne]

/-- Witness for C5 (amended): a 404 response yields `(false, 404)`. -/
theorem verify_url_status_exact_witness :
    verify_url 2 (fun _ => some 404) = (false, 404) := by
  have h := (verify_url_status_exact 2 (fun _ => some 404) 0 404 (by omega) rfl
    (fun i hi => absurd hi (by omega))).1
  simpa using h

/-- Claim C10: on an empty store `get_verification_report` returns
total 0, verified 0, ads 0, doi 0 and percentage 0, the division being
guarded by the `total > 0` test. -/
theorem get_verification_report_empty :
    get_verification_report [] =
      { total_citations := 0, verified_count := 0, ads_urls_valid := 0,
        doi_urls_valid := 0, verification_percentage := 0 } := rfl

/-! # Helper lemmas: store update -/

theorem lookupA_updateA_self (store : Store) (k : String) (c0 c : Citation)
    (h : lookupA store k = some c0) :
    lookupA (updateA store k c) k = some c := by
  induction store with
  | nil => simp [lookupA] at h
  | cons p rest ih =>
    by_cases hp : p.1 = k
    · simp only [updateA, List.map_cons, if_pos hp, lookupA]
      rw [List.find?_cons_of_pos _ (by simp)]
      rfl
    · have h2 : lookupA rest k = some c0 := by
        simp only [lookupA] at h
        rwa [List.find?_cons_of_neg _ (by simpa using hp)] at h
      simp only [updateA, List.map_cons, if_neg hp, lookupA]
      rw [List.find?_cons_of_neg _ (by simpa using hp)]
      exact ih h2

theorem mem_updateA_of_ne (store : Store) (k : String) (c : Citation)
    (p : String × Citation) (hp : p ∈ store) (hne : ¬(p.1 = k)) :
    p ∈ updateA store k c := by
  have h := List.mem_map_of_mem (fun q => if q.1 = k then (k, c) else q) hp
  simp only [if_neg hne] at h
  exact h

theorem mem_of_mem_updateA_ne (store : Store) (k : String) (c : Citation)
    (p : String × Citation) (hp : p ∈ updateA store k c) (hne : ¬(p.1 = k)) :
    p ∈ store := by
  rcases List.mem_map.mp hp with ⟨q, hq, hqe⟩
  by_cases h : q.1 = k
  · rw [if_pos h] at hqe
    rw [← hqe] at hne
    simp at hne
  · rw [if_neg h] at hqe
    exact hqe ▸ hq

theorem adsCheck_frame (mr : Nat) (net : Net) (c : Citation) :
    (adsCheck mr net c).2.citekey = c.citekey
    ∧ (adsCheck mr net c).2.title = c.title
    ∧ (adsCheck mr net c).2.authors = c.authors
    ∧ (adsCheck mr net c).2.year = c.year
    ∧ (adsCheck mr net c).2.journal = c.journal
    ∧ (adsCheck mr net c).2.doi = c.doi
    ∧ (adsCheck mr net c).2.arxiv_id = c.arxiv_id
    ∧ (adsCheck mr net c).2.ads_bibcode = c.ads_bibcode
    ∧ (adsCheck mr net c).2.ads_url = c.ads_url
    ∧ (adsCheck mr net c).2.publisher_url = c.publisher_url
    ∧ (adsCheck mr net c).2.last_verified = c.last_verified
    ∧ (adsCheck mr net c).2.http_status_doi = c.http_status_doi
    ∧ (adsCheck mr net c).2.crossref_match = c.crossref_match
    ∧ (adsCheck mr net c).2.ads_match = c.ads_match
    ∧ (adsCheck mr net c).2.notes = c.notes
    ∧ (adsCheck mr net c).2.bibtex_entry = c.bibtex_entry := by
  unfold adsCheck
  by_cases h : truthyOpt c.ads_url = true
  · simp [h]
  · simp [h]

theorem doiCheck_frame (mr : Nat) (net : Net) (c : Citation) :
    (doiCheck mr net c).2.citekey = c.citekey
    ∧ (doiCheck mr net c).2.title = c.title
    ∧ (doiCheck mr net c).2.authors = c.authors
    ∧ (doiCheck mr net c).2.year = c.year
    ∧ (doiCheck mr net c).2.journal = c.journal
    ∧ (doiCheck mr net c).2.doi = c.doi
    ∧ (doiCheck mr net c).2.arxiv_id = c.arxiv_id
    ∧ (doiCheck mr net c).2.ads_bibcode = c.ads_bibcode
    ∧ (doiCheck mr net c).2.ads_url = c.ads_url
    ∧ (doiCheck mr net c).2.last_verified = c.last_verified
    ∧ (doiCheck mr net c).2.http_status_ads = c.http_status_ads
    ∧ (doiCheck mr net c).2.crossref_match = c.crossref_match
    ∧ (doiCheck mr net c).2.ads_match = c.ads_match
    ∧ (doiCheck mr net c).2.notes = c.notes
    ∧ (doiCheck mr net c).2.bibtex_entry = c.bibtex_entry := by
  unfold doiCheck
  by_cases h : truthyOpt c.doi = true
  · simp [h]
  · simp [h]

theorem doiCheck_publisher_url (mr : Nat) (net : Net) (c : Citation)
    (h : truthyOpt c.doi = true) :
    (doiCheck mr net c).2.publisher_url
      = some ("https://doi.org/" ++ c.doi.getD "") := by
  unfold doiCheck
  simp [h]

/-- Claim C6: for every record present in the store whose `doi` is
truthy, after `verify_citation` the record's `publisher_url` equals
`"https://doi.org/" + doi` regardless of its previous value; and for
every record present in the store — even one with neither `doi` nor
`ads_url` set — `verify_citation` unconditionally sets `last_verified`
to the current timestamp. -/
theorem verify_citation_doi_url_and_timestamp (mr : Nat) (netAds netDoi : Net)
    (now : String) (store : Store) (ck : String) (c : Citation)
    (h : lookupA store ck = some c) :
    ∃ c2, lookupA (verify_citation mr netAds netDoi now store ck).1 ck = some c2
      ∧ (truthyOpt c.doi = true →
          c2.publisher_url = some ("https://doi.org/" ++ c.doi.getD ""))
      ∧ c2.last_verified = some now := by
  unfold verify_citation
  rw [h]
  refine ⟨_, lookupA_updateA_self store ck c _ h, ?_, rfl⟩
  intro hdoi
  have hd : (adsCheck mr netAds c).2.doi = c.doi := (adsCheck_frame mr netAds c).2.2.2.2.2.1
  have hp := doiCheck_publisher_url mr netDoi (adsCheck mr netAds c).2 (by rw [hd]; exact hdoi)
  rw [hd] at hp
  exact hp

/-- Witness for C6: a store holding one record with only a DOI (and a
stale `publisher_url`); after the call the publisher URL is the resolver
URL and the timestamp is set. -/
theorem verify_citation_doi_url_and_timestamp_witness :
    ∃ c2, lookupA (verify_citation 1 (fun _ => none) (fun _ => none) "2025-01-01T00:00:00"
        [("d1", doiOnlyRec)] "d1").1 "d1" = some c2
      ∧ (truthyOpt doiOnlyRec.doi = true →
          c2.publisher_url = some ("https://doi.org/" ++ doiOnlyRec.doi.getD ""))
      ∧ c2.last_verified = some "2025-01-01T00:00:00" :=
  verify_citation_doi_url_and_timestamp 1 (fun _ => none) (fun _ => none)
    "2025-01-01T00:00:00" [("d1", doiOnlyRec)] "d1" doiOnlyRec rfl

/-- Claim C9: `verify_citation` mutates only the verification fields
(`http_status_ads`, `http_status_doi`, `publisher_url`,
`last_verified`) of the addressed record, leaving its thirteen other
fields unchanged; every other record of the store is untouched; and
when the citekey is absent it returns the not-found report and changes
no record at all. -/
theorem verify_citation_frame (mr : Nat) (netAds netDoi : Net) (now : String)
    (store : Store) (ck : String) :
    (lookupA store ck = none →
      verify_citation mr netAds netDoi now store ck = (store, VReport.notFound))
    ∧ (∀ c, lookupA store ck = some c →
        (∀ p, p ∈ store → ¬(p.1 = ck) →
          p ∈ (verify_citation mr netAds netDoi now store ck).1)
        ∧ (∀ p, p ∈ (verify_citation mr netAds netDoi now store ck).1 →
            ¬(p.1 = ck) → p ∈ store)
        ∧ ∃ c2, lookupA (verify_citation mr netAds netDoi now store ck).1 ck = some c2
            ∧ c2.citekey = c.citekey ∧ c2.title = c.title
            ∧ c2.authors = c.authors ∧ c2.year = c.year
            ∧ c2.journal = c.journal ∧ c2.doi = c.doi
            ∧ c2.arxiv_id = c.arxiv_id ∧ c2.ads_bibcode = c.ads_bibcode
            ∧ c2.ads_url = c.ads_url ∧ c2.crossref_match = c.crossref_match
            ∧ c2.ads_match = c.ads_match ∧ c2.notes = c.notes
            ∧ c2.bibtex_entry = c.bibtex_entry) := by
  constructor
  · intro h
    unfold verify_citation
    rw [h]
  · intro c h
    have hstore : (verify_citation mr netAds netDoi now store ck).1
        = updateA store ck
            { (doiCheck mr netDoi (adsCheck mr netAds c).2).2 with
                last_verified := some now } := by
      unfold verify_citation
      rw [h]
    refine ⟨?_, ?_, ?_⟩
    · intro p hp hne
      rw [hstore]
      exact mem_updateA_of_ne store ck _ p hp hne
    · intro p hp hne
      rw [hstore] at hp
      exact mem_of_mem_updateA_ne store ck _ p hp hne
    · refine ⟨{ (doiCheck mr netDoi (adsCheck mr netAds c).2).2 with
          last_verified := some now }, ?_, ?_⟩
      · rw [hstore]
        exact lookupA_updateA_self store ck c _ h
      · have ha := adsCheck_frame mr netAds c
        have hd := doiCheck_frame mr netDoi (adsCheck mr netAds c).2
        obtain ⟨a1, a2, a3, a4, a5, a6, a7, a8, a9, a10, a11, a12, a13, a14, a15, a16⟩ := ha
        obtain ⟨d1, d2, d3, d4, d5, d6, d7, d8, d9, d10, d11, d12, d13, d14, d15⟩ := hd
        refine ⟨?_, ?_, ?_, ?_, ?_, ?_, ?_, ?_, ?_, ?_, ?_, ?_, ?_⟩ <;>
          simp only [d1, d2, d3, d4, d5, d6, d7, d8, d9, d10, d11, d12, d13, d14, d15,
            a1, a2, a3, a4, a5, a6, a7, a8, a9, a10, a11, a12, a13, a14, a15, a16]

/-- Witness for C9: the present-key case on a two-record store; the
other record keeps its membership and the addressed record keeps its
thirteen non-verification fields. -/
theorem verify_citation_frame_witness :
    (∀ p, p ∈ [("d1", doiOnlyRec), ("t", tullyRec)] → ¬(p.1 = "d1") →
      p ∈ (verify_citation 1 (fun _ => none) (fun _ => none) "now"
        [("d1", doiOnlyRec), ("t", tullyRec)] "d1").1)
    ∧ (∀ p, p ∈ (verify_citation 1 (fun _ => none) (fun _ => none) "now"
        [("d1", doiOnlyRec), ("t", tullyRec)] "d1").1 → ¬(p.1 = "d1") →
        p ∈ [("d1", doiOnlyRec), ("t", tullyRec)])
    ∧ ∃ c2, lookupA (verify_citation 1 (fun _ => none) (fun _ => none) "now"
          [("d1", doiOnlyRec), ("t", tullyRec)] "d1").1 "d1" = some c2
        ∧ c2.citekey = doiOnlyRec.citekey ∧ c2.title = doiOnlyRec.title
        ∧ c2.authors = doiOnlyRec.authors ∧ c2.year = doiOnlyRec.year
        ∧ c2.journal = doiOnlyRec.journal ∧ c2.doi = doiOnlyRec.doi
        ∧ c2.arxiv_id = doiOnlyRec.arxiv_id ∧ c2.ads_bibcode = doiOnlyRec.ads_bibcode
        ∧ c2.ads_url = doiOnlyRec.ads_url ∧ c2.crossref_match = doiOnlyRec.crossref_match
        ∧ c2.ads_match = doiOnlyRec.ads_match ∧ c2.notes = doiOnlyRec.notes
        ∧ c2.bibtex_entry = doiOnlyRec.bibtex_entry :=
  (verify_citation_frame 1 (fun _ => none) (fun _ => none) "now"
    [("d1", doiOnlyRec), ("t", tullyRec)] "d1").2 doiOnlyRec rfl

/-! # Helper lemmas: parse pipeline shape -/

theorem splitSepF_ne_nil (sep : List Char) (fuel : Nat) (l : List Char) :
    splitSepF sep fuel l ≠ [] := by
  cases fuel with
  | zero => simp [splitSepF]
  | succ n =>
    simp only [splitSepF]
    cases findSep sep l with
    | none => simp
    | some p =>
      cases p with
      | mk b a => simp

theorem parsedLines_decomp (s : String) :
    splitLines (pyStripL s.data) = firstLineOf s :: restLinesOf s := by
  unfold firstLineOf restLinesOf
  cases h : splitLines (pyStripL s.data) with
  | nil =>
    have hne : splitLines (pyStripL s.data) ≠ [] := by
      unfold splitLines pySplitSep
      exact splitSepF_ne_nil _ _ _
    exact absurd h hne
  | cons a t => simp [h]

theorem parse_stores_raw_text (t : String) (r : Citation)
    (h : create_citation_from_bibtex t = some r) : r.bibtex_entry = t := by
  unfold create_citation_from_bibtex at h
  split at h
  · exact absurd h (by simp)
  · split at h
    · exact absurd h (by simp)
    · dsimp only at h
      split at h
      · exact absurd h (by simp)
      · rw [← Option.some_inj.mp h]

/-! # Claims C1, C7 -/

/-- Claim C1 as stated is false: parsing a generated text need not
succeed.  A record with an empty title (and no cached entry) generates a
`title={}` line, so the parse fails the non-empty-title check. -/
theorem generate_parse_counterexample :
    emptyTitleRec.bibtex_entry = ""
    ∧ create_citation_from_bibtex (generateEntry emptyTitleRec) = none :=
  ⟨rfl, by decide⟩

/-- Claim C1 (amended): for every interchange text `t` produced by
`generateEntry` from a record with no cached `bibtex_entry`, if parsing
`t` succeeds (which it does for interchange-safe records, though not for
all records), re-generating from the parsed record reproduces `t`
character for character: the parse stores the raw input text in
`bibtex_entry` and generation emits a non-empty `bibtex_entry`
verbatim. -/
theorem generate_after_parse (c r : Citation) (_hc : c.bibtex_entry = "")
    (h : create_citation_from_bibtex (generateEntry c) = some r) :
    r.bibtex_entry = generateEntry c ∧ generateEntry r = generateEntry c := by
  have hb : r.bibtex_entry = generateEntry c := parse_stores_raw_text _ _ h
  have hne : ¬(generateEntry c).isEmpty = true := by
    intro he
    rw [(String.isEmpty_iff _).mp he] at h
    have hnone : create_citation_from_bibtex "" = none := by decide
    rw [hnone] at h
    exact absurd h (by simp)
  refine ⟨hb, ?_⟩
  rw [generateEntry, hb, if_pos (by simpa using hne)]

/-- Witness for C1 (amended): the Tully record round-trips through
parse and regenerate. -/
theorem generate_after_parse_witness :
    tullyParsed.bibtex_entry = generateEntry tullyRec
    ∧ generateEntry tullyParsed = generateEntry tullyRec :=
  generate_after_parse tullyRec tullyParsed rfl (by decide)

/-- Claim C7: `create_citation_from_bibtex` returns no record for
exactly two reasons — the first line fails the `@<kind>{<citekey>,`
pattern, or after field extraction the citekey, title, author list or
year is empty/zero; and a year value that fails integer parsing leaves
the year field unchanged (hence 0) instead of aborting: the parse then
fails through the emptiness check, never through an exception (the
model is a total function). -/
theorem parse_failure_characterization (t : String) :
    (create_citation_from_bibtex t = none ↔
      matchCitekey (firstLineOf t) = none
      ∨ ∃ ck, matchCitekey (firstLineOf t) = some ck
          ∧ (ck.isEmpty = true
             ∨ ((restLinesOf t).foldl processLine initFields).title.isEmpty = true
             ∨ ((restLinesOf t).foldl processLine initFields).authors.isEmpty = true
             ∨ ((restLinesOf t).foldl processLine initFields).year = 0))
    ∧ (∀ f line, lineKey line = "year".data → pyIntL (lineValue line) = none →
        (processLine f line).year = f.year) := by
  constructor
  · unfold create_citation_from_bibtex
    rw [parsedLines_decomp t]
    dsimp only
    cases hm : matchCitekey (firstLineOf t) with
    | none => simp [hm]
    | some ck =>
      dsimp only
      by_cases hbad : (ck.isEmpty
          || ((restLinesOf t).foldl processLine initFields).title.isEmpty
          || ((restLinesOf t).foldl processLine initFields).authors.isEmpty
          || (((restLinesOf t).foldl processLine initFields).year == 0)) = true
      · rw [if_pos hbad]
        simp only [Bool.or_eq_true, beq_iff_eq] at hbad
        simp only [true_iff]
        exact Or.inr ⟨ck, rfl, by tauto⟩
      · rw [if_neg hbad]
        simp only [Bool.or_eq_true, beq_iff_eq] at hbad
        push_neg at hbad
        simp only [reduceCtorEq, false_iff, not_or]
        refine ⟨by simp, ?_⟩
        rintro ⟨ck2, hck2, hor⟩
        rw [Option.some_inj.mp hck2.symm] at hor
        tauto
  · intro f line hk hv
    unfold processLine
    by_cases he : '=' ∈ cleanLine line
    · rw [if_pos he]
      dsimp only
      rw [hk]
      rw [if_neg (by decide), if_neg (by decide), if_pos rfl, hv]
    · rw [if_neg he]

/-- Witness for C7: a block whose first line fails the pattern parses to
nothing, through the first disjunct of the characterization. -/
theorem parse_failure_characterization_witness :
    create_citation_from_bibtex "just some text" = none :=
  (parse_failure_characterization "just some text").1.mpr (Or.inl (by decide))

/-! # Helper lemmas: the dedup running best -/

theorem pick_score_left (a e : String × Citation) :
    _citation_completeness a.2 ≤ _citation_completeness (pick a e).2 := by
  unfold pick
  by_cases h : _citation_completeness e.2 > _citation_completeness a.2
  · rw [if_pos h]; omega
  · rw [if_neg h]

theorem pick_score_right (a e : String × Citation) :
    _citation_completeness e.2 ≤ _citation_completeness (pick a e).2 := by
  unfold pick
  by_cases h : _citation_completeness e.2 > _citation_completeness a.2
  · rw [if_pos h]
  · rw [if_neg h]; omega

theorem pick_cases (a e : String × Citation) : pick a e = a ∨ pick a e = e := by
  unfold pick
  by_cases h : _citation_completeness e.2 > _citation_completeness a.2
  · rw [if_pos h]; exact Or.inr rfl
  · rw [if_neg h]; exact Or.inl rfl

theorem runBest_concat (a e : String × Citation) (l : List (String × Citation)) :
    runBest a (l ++ [e]) = pick (runBest a l) e := by
  unfold runBest
  rw [List.foldl_append]
  rfl

theorem runBest_append (a : String × Citation) (u v : List (String × Citation)) :
    runBest a (u ++ v) = runBest (runBest a u) v := by
  unfold runBest
  rw [List.foldl_append]

theorem runBest_mem (a : String × Citation) (l : List (String × Citation)) :
    runBest a l ∈ a :: l := by
  induction l generalizing a with
  | nil => simp [runBest]
  | cons e es ih =>
    have h := ih (pick a e)
    unfold runBest at h ⊢
    simp only [List.foldl_cons]
    rcases List.mem_cons.mp h with h1 | h1
    · rw [h1]
      rcases pick_cases a e with h2 | h2 <;> simp [h2]
    · simp [h1]

theorem score_le_runBest (a : String × Citation) (l : List (String × Citation)) :
    ∀ x ∈ a :: l, _citation_completeness x.2 ≤ _citation_completeness (runBest a l).2 := by
  induction l generalizing a with
  | nil =>
    intro x hx
    rw [List.mem_singleton.mp hx]
    simp [runBest]
  | cons e es ih =>
    intro x hx
    have hstep : runBest a (e :: es) = runBest (pick a e) es := by
      unfold runBest
      simp [List.foldl_cons]
    rw [hstep]
    rcases List.mem_cons.mp hx with h1 | h1
    · calc _citation_completeness x.2
          ≤ _citation_completeness (pick a e).2 := by rw [h1]; exact pick_score_left a e
        _ ≤ _citation_completeness (runBest (pick a e) es).2 :=
          ih (pick a e) _ (List.mem_cons_self _ _)
    · rcases List.mem_cons.mp h1 with h2 | h2
      · calc _citation_completeness x.2
            ≤ _citation_completeness (pick a e).2 := by rw [h2]; exact pick_score_right a e
          _ ≤ _citation_completeness (runBest (pick a e) es).2 :=
            ih (pick a e) _ (List.mem_cons_self _ _)
      · exact ih (pick a e) x (List.mem_cons_of_mem _ h2)

theorem runBest_avoid (a y : String × Citation) (u v : List (String × Citation))
    (hscore : ∃ x ∈ a :: u, _citation_completeness y.2 ≤ _citation_completeness x.2)
    (hy1 : ¬y ∈ a :: u) (hy2 : ¬y ∈ v) :
    ¬runBest a (u ++ y :: v) = y := by
  intro hcon
  rcases hscore with ⟨x, hx, hxy⟩
  have h1 : runBest a (u ++ y :: v) = runBest (pick (runBest a u) y) v := by
    rw [runBest_append]
    unfold runBest
    simp [List.foldl_cons]
  have hM : _citation_completeness y.2 ≤ _citation_completeness (runBest a u).2 :=
    le_trans hxy (score_le_runBest a u x hx)
  have hpick : pick (runBest a u) y = runBest a u := by
    unfold pick
    rw [if_neg (by omega)]
  rw [h1, hpick] at hcon
  have hmem := runBest_mem (runBest a u) v
  rw [hcon] at hmem
  rcases List.mem_cons.mp hmem with h2 | h2
  · exact hy1 (h2 ▸ runBest_mem a u)
  · exact hy2 h2

/-! # Helper lemmas: association-list lookups under key nodup -/

theorem nodupFst_inj {S : Store} (hnd : (S.map Prod.fst).Nodup)
    {x y : String × Citation} (hx : x ∈ S) (hy : y ∈ S) (h : x.1 = y.1) :
    x = y := by
  induction S with
  | nil => simp at hx
  | cons p rest ih =>
    rw [List.map_cons, List.nodup_cons] at hnd
    rcases List.mem_cons.mp hx with hx1 | hx1 <;> rcases List.mem_cons.mp hy with hy1 | hy1
    · rw [hx1, hy1]
    · exfalso
      apply hnd.1
      rw [hx1] at h
      rw [h]
      exact List.mem_map_of_mem Prod.fst hy1
    · exfalso
      apply hnd.1
      rw [hy1] at h
      rw [← h]
      exact List.mem_map_of_mem Prod.fst hx1
    · exact ih hnd.2 hx1 hy1

theorem lookupA_eq_of_mem {S : Store} {p : String × Citation}
    (hnd : (S.map Prod.fst).Nodup) (hm : p ∈ S) : lookupA S p.1 = some p.2 := by
  induction S with
  | nil => simp at hm
  | cons q rest ih =>
    rw [List.map_cons, List.nodup_cons] at hnd
    rcases List.mem_cons.mp hm with h1 | h1
    · rw [h1]
      unfold lookupA
      rw [List.find?_cons_of_pos _ (by simp)]
      rfl
    · have hq : ¬q.1 = p.1 := by
        intro he
        apply hnd.1
        rw [he]
        exact List.mem_map_of_mem Prod.fst h1
      unfold lookupA
      rw [List.find?_cons_of_neg _ (by simpa using hq)]
      exact ih hnd.2 h1

theorem seenLookup_insert (seen : List ((List Char × Int) × String))
    (k : List Char × Int) (v : String) (κ : List Char × Int) :
    seenLookup (seenInsert seen k v) κ = if κ = k then some v else seenLookup seen κ := by
  by_cases h : κ = k
  · rw [if_pos h, h]
    unfold seenLookup seenInsert
    rw [List.find?_cons_of_pos _ (by simp)]
    rfl
  · rw [if_neg h]
    unfold seenLookup seenInsert
    rw [List.find?_cons_of_neg _ (by simpa using fun he => h he.symm)]
    congr 1
    induction seen with
    | nil => rfl
    | cons q rest ih =>
      by_cases hq : q.1 = k
      · rw [List.filter_cons_of_neg (by simpa using hq)]
        rw [List.find?_cons_of_neg _ (by simp [hq]; exact fun he => h he.symm)]
        exact ih
      · rw [List.filter_cons_of_pos (by simpa using hq)]
        by_cases hqκ : q.1 = κ
        · rw [List.find?_cons_of_pos _ (by simpa using hqκ), List.find?_cons_of_pos _ (by simpa using hqκ)]
        · rw [List.find?_cons_of_neg _ (by simpa using hqκ), List.find?_cons_of_neg _ (by simpa using hqκ)]
          exact ih

/-! # Helper lemmas: equality classes and the kept member -/

theorem mem_classOf {S : Store} {κ : List Char × Int} {x : String × Citation} :
    x ∈ classOf S κ ↔ x ∈ S ∧ eqKeyOf x.2 = κ := by
  unfold classOf
  rw [List.mem_filter]
  simp

theorem classOf_append (P : Store) (e : String × Citation) (κ : List Char × Int) :
    classOf (P ++ [e]) κ
      = classOf P κ ++ (if eqKeyOf e.2 = κ then [e] else []) := by
  unfold classOf
  rw [List.filter_append]
  congr 1
  by_cases h : eqKeyOf e.2 = κ
  · rw [if_pos h]
    simp [h]
  · rw [if_neg h]
    simp [h]

theorem leftBest_eq_none {P : Store} {κ : List Char × Int} :
    leftBest P κ = none ↔ classOf P κ = [] := by
  unfold leftBest
  cases h : classOf P κ with
  | nil => simp
  | cons c cs => simp

theorem leftBest_mem {P : Store} {κ : List Char × Int} {m : String × Citation}
    (h : leftBest P κ = some m) : m ∈ classOf P κ := by
  unfold leftBest at h
  cases hc : classOf P κ with
  | nil => rw [hc] at h; simp at h
  | cons c cs =>
    rw [hc] at h
    have := runBest_mem c cs
    rw [Option.some_inj.mp h] at this
    exact this

theorem leftBest_append_ne (P : Store) (e : String × Citation)
    (κ : List Char × Int) (h : ¬eqKeyOf e.2 = κ) :
    leftBest (P ++ [e]) κ = leftBest P κ := by
  unfold leftBest
  rw [classOf_append, if_neg h, List.append_nil]

theorem leftBest_append_self (P : Store) (e : String × Citation) :
    leftBest (P ++ [e]) (eqKeyOf e.2)
      = match leftBest P (eqKeyOf e.2) with
        | none => some e
        | some m => some (pick m e) := by
  unfold leftBest
  rw [classOf_append, if_pos rfl]
  cases h : classOf P (eqKeyOf e.2) with
  | nil => simp [runBest]
  | cons c cs =>
    simp only [List.cons_append]
    rw [runBest_concat]

theorem survivesIn_true_iff {S : Store} {x : String × Citation} :
    survivesIn S x = true ↔ (leftBest S (eqKeyOf x.2)).map (fun p => p.1) = some x.1 := by
  unfold survivesIn
  exact beq_iff_eq

/-! # The dedup scan invariant -/

theorem dedup_invariant (S : Store) (hnd : (S.map Prod.fst).Nodup) :
    ∀ P R, S = P ++ R →
      (List.foldl dedupStep ⟨S, [], []⟩ P).store
          = P.filter (fun x => survivesIn P x) ++ R
      ∧ (∀ κ, seenLookup (List.foldl dedupStep ⟨S, [], []⟩ P).seen κ
          = (leftBest P κ).map (fun p => p.1))
      ∧ (∀ k, k ∈ (List.foldl dedupStep ⟨S, [], []⟩ P).dups
          ↔ ∃ x, x ∈ P ∧ x.1 = k ∧ survivesIn P x = false) := by
  intro P
  induction P using List.reverseRecOn with
  | nil =>
    intro R hR
    refine ⟨by simpa using hR, ?_, ?_⟩
    · intro κ
      simp [seenLookup, leftBest, classOf]
    · intro k
      simp
  | append_singleton P e ih =>
    intro R hR
    have hS : S = P ++ e :: R := by rw [hR]; simp
    obtain ⟨ih1, ih2, ih3⟩ := ih (e :: R) hS
    set st : DedupState := List.foldl dedupStep ⟨S, [], []⟩ P with hstdef
    have hfold : List.foldl dedupStep ⟨S, [], []⟩ (P ++ [e]) = dedupStep st e := by
      rw [List.foldl_append, hstdef]
      rfl
    have hndS : ((P ++ e :: R).map Prod.fst).Nodup := hS ▸ hnd
    have hndP : (P.map Prod.fst).Nodup := by
      rw [List.map_append] at hndS
      exact hndS.of_append_left
    have hdisj : ∀ x ∈ P, ¬x.1 = e.1 := by
      intro x hx hxe
      rw [List.map_append] at hndS
      have hd := List.disjoint_of_nodup_append hndS
      exact hd (List.mem_map_of_mem Prod.fst hx)
        (by rw [hxe]; exact List.mem_map_of_mem Prod.fst (List.mem_cons_self e R))
    have hRe : ∀ x ∈ R, ¬x.1 = e.1 := by
      intro x hx hxe
      rw [List.map_append] at hndS
      have h2 := hndS.of_append_right
      rw [List.map_cons, List.nodup_cons] at h2
      exact h2.1 (by rw [← hxe]; exact List.mem_map_of_mem Prod.fst hx)
    rw [hfold]
    unfold dedupStep
    dsimp only
    cases hlb : leftBest P (eqKeyOf e.2) with
    | none =>
      rw [ih2 (eqKeyOf e.2), hlb]
      simp only [Option.map_none']
      have hcls : classOf P (eqKeyOf e.2) = [] := leftBest_eq_none.mp hlb
      have hse : survivesIn (P ++ [e]) e = true := by
        rw [survivesIn_true_iff, leftBest_append_self, hlb]
        rfl
      have hstab : ∀ x ∈ P, survivesIn (P ++ [e]) x = survivesIn P x := by
        intro x hx
        by_cases hκ : eqKeyOf x.2 = eqKeyOf e.2
        · exfalso
          have hmem : x ∈ classOf P (eqKeyOf e.2) := mem_classOf.mpr ⟨hx, hκ⟩
          rw [hcls] at hmem
          simp at hmem
        · unfold survivesIn
          rw [leftBest_append_ne P e _ (fun hh => hκ hh.symm)]
      refine ⟨?_, ?_, ?_⟩
      · have hrhs : (P ++ [e]).filter (fun x => survivesIn (P ++ [e]) x) ++ R
            = P.filter (fun x => survivesIn P x) ++ (e :: R) := by
          rw [List.filter_append, List.filter_congr hstab]
          have hCe : [e].filter (fun x => survivesIn (P ++ [e]) x) = [e] := by
            rw [List.filter_eq_self]
            intro a ha
            rw [List.mem_singleton.mp ha]
            exact hse
          rw [hCe, List.append_assoc, List.singleton_append]
        rw [hrhs]
        exact ih1
      · intro κ
        rw [seenLookup_insert]
        by_cases hκ : κ = eqKeyOf e.2
        · rw [if_pos hκ, hκ, leftBest_append_self, hlb]
          rfl
        · rw [if_neg hκ, ih2 κ, leftBest_append_ne P e κ (fun hh => hκ hh.symm)]
      · intro k
        rw [ih3 k]
        constructor
        · rintro ⟨x, hx, hxk, hxs⟩
          exact ⟨x, List.mem_append_left _ hx, hxk, by rw [hstab x hx]; exact hxs⟩
        · rintro ⟨x, hx, hxk, hxs⟩
          rcases List.mem_append.mp hx with h1 | h1
          · exact ⟨x, h1, hxk, by rw [← hstab x h1]; exact hxs⟩
          · exfalso
            rw [List.mem_singleton.mp h1, hse] at hxs
            simp at hxs
    | some m =>
      rw [ih2 (eqKeyOf e.2), hlb]
      simp only [Option.map_some']
      have hmcls : m ∈ classOf P (eqKeyOf e.2) := leftBest_mem hlb
      have hmP : m ∈ P := (mem_classOf.mp hmcls).1
      have hmκ : eqKeyOf m.2 = eqKeyOf e.2 := (mem_classOf.mp hmcls).2
      have hsurvm : survivesIn P m = true := by
        rw [survivesIn_true_iff, hmκ, hlb]
        rfl
      have hmst : m ∈ st.store := by
        rw [ih1]
        exact List.mem_append_left _ (List.mem_filter.mpr ⟨hmP, hsurvm⟩)
      have hndst : (st.store.map Prod.fst).Nodup := by
        rw [ih1]
        have hsub : (P.filter (fun x => survivesIn P x) ++ e :: R).Sublist (P ++ e :: R) :=
          List.Sublist.append (List.filter_sublist P) (List.Sublist.refl _)
        exact List.Nodup.sublist (hsub.map Prod.fst) hndS
      have hlook : lookupA st.store m.1 = some m.2 :=
        lookupA_eq_of_mem hndst hmst
      rw [hlook]
      dsimp only
      have hem : ¬e.1 = m.1 := fun h => hdisj m hmP h.symm
      by_cases hgt : _citation_completeness e.2 > _citation_completeness m.2
      · rw [if_pos hgt]
        have hpick : pick m e = e := by
          unfold pick
          rw [if_pos hgt]
        have hlbnew : leftBest (P ++ [e]) (eqKeyOf e.2) = some e := by
          rw [leftBest_append_self, hlb]
          dsimp only
          rw [hpick]
        have hsurvnew_e : survivesIn (P ++ [e]) e = true := by
          rw [survivesIn_true_iff, hlbnew]
          rfl
        have hpoint : ∀ x ∈ P,
            (decide (¬x.1 = m.1) && survivesIn P x) = survivesIn (P ++ [e]) x := by
          intro x hx
          by_cases hκ : eqKeyOf x.2 = eqKeyOf e.2
          · have hnew : survivesIn (P ++ [e]) x = false := by
              unfold survivesIn
              rw [hκ, hlbnew]
              simp only [Option.map_some']
              rw [beq_eq_false_iff_ne]
              intro hcon
              exact hdisj x hx (Option.some_inj.mp hcon).symm
            rw [hnew]
            by_cases hxm : x.1 = m.1
            · simp [hxm]
            · have hold : survivesIn P x = false := by
                unfold survivesIn
                rw [hκ, hlb]
                simp only [Option.map_some']
                rw [beq_eq_false_iff_ne]
                intro hcon
                exact hxm (Option.some_inj.mp hcon).symm
              simp [hold]
          · have hnewold : survivesIn (P ++ [e]) x = survivesIn P x := by
              unfold survivesIn
              rw [leftBest_append_ne P e _ (fun hh => hκ hh.symm)]
            rw [hnewold]
            have hxm : ¬x.1 = m.1 := by
              intro hcon
              have hxe := nodupFst_inj hndP hx hmP hcon
              rw [hxe] at hκ
              exact hκ hmκ
            simp [hxm]
        refine ⟨?_, ?_, ?_⟩
        · have hCe : [e].filter (fun x => survivesIn (P ++ [e]) x) = [e] := by
            rw [List.filter_eq_self]
            intro a ha
            rw [List.mem_singleton.mp ha]
            exact hsurvnew_e
          have hrhs : (P ++ [e]).filter (fun x => survivesIn (P ++ [e]) x) ++ R
              = P.filter (fun x => survivesIn (P ++ [e]) x) ++ (e :: R) := by
            rw [List.filter_append, hCe, List.append_assoc, List.singleton_append]
          rw [hrhs, ih1]
          unfold eraseKey
          rw [List.filter_append]
          have hA : (P.filter (fun x => survivesIn P x)).filter (fun p => decide ¬(p.1 = m.1))
              = P.filter (fun x => survivesIn (P ++ [e]) x) := by
            rw [List.filter_filter]
            exact List.filter_congr (fun x hx => hpoint x hx)
          have hB : (e :: R).filter (fun p => decide ¬(p.1 = m.1)) = e :: R := by
            rw [List.filter_eq_self]
            intro a ha
            rcases List.mem_cons.mp ha with h1 | h1
            · rw [h1]
              simpa using hem
            · have haR : ¬a.1 = m.1 := by
                intro hcon
                rw [List.map_append] at hndS
                have hd := List.disjoint_of_nodup_append hndS
                exact hd (List.mem_map_of_mem Prod.fst hmP)
                  (by rw [← hcon]
                      exact List.mem_map_of_mem Prod.fst (List.mem_cons_of_mem e h1))
              simpa using haR
          rw [hA, hB]
        · intro κ
          rw [seenLookup_insert]
          by_cases hκ : κ = eqKeyOf e.2
          · rw [if_pos hκ, hκ, hlbnew]
            rfl
          · rw [if_neg hκ, ih2 κ, leftBest_append_ne P e κ (fun hh => hκ hh.symm)]
        · intro k
          rw [List.mem_append, ih3 k, List.mem_singleton]
          constructor
          · rintro (⟨x, hx, hxk, hxs⟩ | hkm)
            · refine ⟨x, List.mem_append_left _ hx, hxk, ?_⟩
              rw [← hpoint x hx, hxs, Bool.and_false]
            · refine ⟨m, List.mem_append_left _ hmP, hkm.symm, ?_⟩
              unfold survivesIn
              rw [hmκ, hlbnew]
              simp only [Option.map_some']
              rw [beq_eq_false_iff_ne]
              intro hcon
              exact hem (Option.some_inj.mp hcon)
          · rintro ⟨x, hx, hxk, hxs⟩
            rcases List.mem_append.mp hx with h1 | h1
            · have hp := hpoint x h1
              rw [hxs] at hp
              rcases Bool.and_eq_false_iff.mp hp with h2 | h2
              · right
                rw [← hxk]
                simpa using h2
              · left
                exact ⟨x, h1, hxk, h2⟩
            · exfalso
              rw [List.mem_singleton.mp h1, hsurvnew_e] at hxs
              simp at hxs
      · rw [if_neg hgt]
        have hpick2 : pick m e = m := by
          unfold pick
          rw [if_neg hgt]
        have hlbnew : leftBest (P ++ [e]) (eqKeyOf e.2) = some m := by
          rw [leftBest_append_self, hlb]
          dsimp only
          rw [hpick2]
        have hsurv_e : survivesIn (P ++ [e]) e = false := by
          unfold survivesIn
          rw [hlbnew]
          simp only [Option.map_some']
          rw [beq_eq_false_iff_ne]
          intro hcon
          exact hem (Option.some_inj.mp hcon).symm
        have hstab2 : ∀ x ∈ P, survivesIn (P ++ [e]) x = survivesIn P x := by
          intro x hx
          by_cases hκ : eqKeyOf x.2 = eqKeyOf e.2
          · unfold survivesIn
            rw [hκ, hlbnew, hlb]
          · unfold survivesIn
            rw [leftBest_append_ne P e _ (fun hh => hκ hh.symm)]
        refine ⟨?_, ?_, ?_⟩
        · have hCe : [e].filter (fun x => survivesIn (P ++ [e]) x) = [] := by
            rw [List.filter_eq_nil_iff]
            intro a ha
            rw [List.mem_singleton.mp ha]
            simp [hsurv_e]
          have hrhs : (P ++ [e]).filter (fun x => survivesIn (P ++ [e]) x) ++ R
              = P.filter (fun x => survivesIn P x) ++ R := by
            rw [List.filter_append, List.filter_congr hstab2, hCe, List.append_nil]
          rw [hrhs, ih1]
          unfold eraseKey
          rw [List.filter_append]
          have hA2 : (P.filter (fun x => survivesIn P x)).filter (fun p => decide ¬(p.1 = e.1))
              = P.filter (fun x => survivesIn P x) := by
            rw [List.filter_eq_self]
            intro a ha
            simpa using hdisj a (List.mem_filter.mp ha).1
          have hB2 : (e :: R).filter (fun p => decide ¬(p.1 = e.1)) = R := by
            rw [List.filter_cons_of_neg (by simp)]
            rw [List.filter_eq_self]
            intro a ha
            simpa using hRe a ha
          rw [hA2, hB2]
        · intro κ
          rw [ih2 κ]
          by_cases hκ : κ = eqKeyOf e.2
          · rw [hκ, hlbnew, hlb]
          · rw [leftBest_append_ne P e κ (fun hh => hκ hh.symm)]
        · intro k
          rw [List.mem_append, ih3 k, List.mem_singleton]
          constructor
          · rintro (⟨x, hx, hxk, hxs⟩ | hke)
            · exact ⟨x, List.mem_append_left _ hx, hxk, by rw [hstab2 x hx]; exact hxs⟩
            · exact ⟨e, List.mem_append_right _ (List.mem_singleton_self e), hke.symm, hsurv_e⟩
          · rintro ⟨x, hx, hxk, hxs⟩
            rcases List.mem_append.mp hx with h1 | h1
            · left
              exact ⟨x, h1, hxk, by rw [← hstab2 x h1]; exact hxs⟩
            · right
              rw [← hxk, List.mem_singleton.mp h1]

/-- The scan computes exactly the leftmost-maximal member of each
equality class: the final store keeps the survivors in order, and the
removed list holds exactly the citekeys of the non-survivors. -/
theorem dedup_master (S : Store) (hnd : (S.map Prod.fst).Nodup) :
    (deduplicate_citations S).1 = S.filter (fun x => survivesIn S x)
    ∧ (∀ k, k ∈ (deduplicate_citations S).2
        ↔ ∃ x, x ∈ S ∧ x.1 = k ∧ survivesIn S x = false) := by
  have h := dedup_invariant S hnd S [] (by simp)
  unfold deduplicate_citations
  dsimp only
  refine ⟨?_, h.2.2⟩
  rw [h.1, List.append_nil]

theorem leftBest_score_ge {S : Store} {κ : List Char × Int} {b : String × Citation}
    (h : leftBest S κ = some b) :
    ∀ x ∈ classOf S κ, _citation_completeness x.2 ≤ _citation_completeness b.2 := by
  unfold leftBest at h
  cases hc : classOf S κ with
  | nil =>
    rw [hc] at h
    simp at h
  | cons c cs =>
    rw [hc] at h
    intro x hx
    rw [← Option.some_inj.mp h]
    exact score_le_runBest c cs x hx

theorem not_mem_of_nodupFst_decomp {X Z : Store} {y : String × Citation}
    (h : (((X ++ y :: Z)).map Prod.fst).Nodup) : y ∉ X ∧ y ∉ Z := by
  rw [List.map_append] at h
  constructor
  · intro hy
    exact (List.disjoint_of_nodup_append h) (List.mem_map_of_mem Prod.fst hy)
      (List.mem_map_of_mem Prod.fst (List.mem_cons_self y Z))
  · intro hy
    have h2 := h.of_append_right
    rw [List.map_cons, List.nodup_cons] at h2
    exact h2.1 (List.mem_map_of_mem Prod.fst hy)

/-! # Claim C3 -/

/-- Claim C3: `deduplicate_citations` groups records by the equality key
(lower-cased whitespace-trimmed title, year).  Whenever two records of
the store share that key, the loser of the completeness-score comparison
(the weights being bibcode 3, doi 2, arxiv 1, journal 1, cached entry 2)
is deleted from the store and its citekey appended to the removed list:
the later record loses unless its score is strictly higher, so on equal
scores the earlier-seen record is kept; and when no third record shares
the key, the winner survives in the store. -/
theorem deduplicate_pair_contract (S : Store) (pre mid post : Store)
    (k1 k2 : String) (c1 c2 : Citation)
    (hdecomp : S = pre ++ (k1, c1) :: mid ++ (k2, c2) :: post)
    (hnd : (S.map Prod.fst).Nodup)
    (hkey : eqKeyOf c1 = eqKeyOf c2) :
    (_citation_completeness c2 > _citation_completeness c1 →
      k1 ∈ (deduplicate_citations S).2 ∧ (k1, c1) ∉ (deduplicate_citations S).1)
    ∧ (¬(_citation_completeness c2 > _citation_completeness c1) →
      k2 ∈ (deduplicate_citations S).2 ∧ (k2, c2) ∉ (deduplicate_citations S).1)
    ∧ ((∀ x ∈ pre ++ mid ++ post, ¬eqKeyOf x.2 = eqKeyOf c1) →
        (_citation_completeness c2 > _citation_completeness c1 →
          (k2, c2) ∈ (deduplicate_citations S).1)
        ∧ (¬(_citation_completeness c2 > _citation_completeness c1) →
          (k1, c1) ∈ (deduplicate_citations S).1)) := by
  obtain ⟨hm1, hm2⟩ := dedup_master S hnd
  have hmem1 : (k1, c1) ∈ S := by
    rw [hdecomp]
    simp
  have hmem2 : (k2, c2) ∈ S := by
    rw [hdecomp]
    simp
  have hcls1 : (k1, c1) ∈ classOf S (eqKeyOf c1) := mem_classOf.mpr ⟨hmem1, rfl⟩
  have hcls2 : (k2, c2) ∈ classOf S (eqKeyOf c1) := mem_classOf.mpr ⟨hmem2, by rw [hkey]⟩
  have hclseq : classOf S (eqKeyOf c1)
      = classOf pre (eqKeyOf c1)
        ++ (k1, c1) :: (classOf mid (eqKeyOf c1)
          ++ (k2, c2) :: classOf post (eqKeyOf c1)) := by
    rw [hdecomp]
    unfold classOf
    rw [List.filter_append, List.filter_cons_of_pos (by simp [← hkey]),
      List.filter_append, List.filter_cons_of_pos (by simp [← hkey])]
    simp
  have hndcls : ((classOf S (eqKeyOf c1)).map Prod.fst).Nodup := by
    unfold classOf
    exact List.Nodup.sublist ((List.filter_sublist S).map Prod.fst) hnd
  have hsurv1false : _citation_completeness c2 > _citation_completeness c1 →
      survivesIn S (k1, c1) = false := by
    intro hgt
    cases hsv : survivesIn S (k1, c1) with
    | false => rfl
    | true =>
      exfalso
      have hmap := survivesIn_true_iff.mp hsv
      cases hlbv : leftBest S (eqKeyOf c1) with
      | none =>
        rw [show eqKeyOf (k1, c1).2 = eqKeyOf c1 from rfl, hlbv] at hmap
        simp at hmap
      | some b =>
        rw [show eqKeyOf (k1, c1).2 = eqKeyOf c1 from rfl, hlbv] at hmap
        simp only [Option.map_some'] at hmap
        have hb1 : b.1 = k1 := Option.some_inj.mp hmap
        have hbS : b ∈ S := (mem_classOf.mp (leftBest_mem hlbv)).1
        have hbeq : b = (k1, c1) := nodupFst_inj hnd hbS hmem1 hb1
        have hge := leftBest_score_ge hlbv (k2, c2) hcls2
        rw [hbeq] at hge
        simp only at hge
        omega
  have hsurv2false : ¬(_citation_completeness c2 > _citation_completeness c1) →
      survivesIn S (k2, c2) = false := by
    intro hng
    cases hsv : survivesIn S (k2, c2) with
    | false => rfl
    | true =>
      exfalso
      have hmap := survivesIn_true_iff.mp hsv
      rw [show eqKeyOf (k2, c2).2 = eqKeyOf c2 from rfl, ← hkey] at hmap
      cases hlbv : leftBest S (eqKeyOf c1) with
      | none =>
        rw [hlbv] at hmap
        simp at hmap
      | some b =>
        rw [hlbv] at hmap
        simp only [Option.map_some'] at hmap
        have hb1 : b.1 = k2 := Option.some_inj.mp hmap
        have hbS : b ∈ S := (mem_classOf.mp (leftBest_mem hlbv)).1
        have hbeq : b = (k2, c2) := nodupFst_inj hnd hbS hmem2 hb1
        rw [hbeq] at hlbv
        cases hA : classOf pre (eqKeyOf c1) with
        | nil =>
          have hshape : classOf S (eqKeyOf c1)
              = (k1, c1) :: (classOf mid (eqKeyOf c1) ++ (k2, c2) :: classOf post (eqKeyOf c1)) := by
            rw [hclseq, hA, List.nil_append]
          have hnot : (k2, c2) ∉ (k1, c1) :: classOf mid (eqKeyOf c1)
              ∧ (k2, c2) ∉ classOf post (eqKeyOf c1) := by
            have hnd2 : ((((k1, c1) :: classOf mid (eqKeyOf c1)) ++ (k2, c2) :: classOf post (eqKeyOf c1)).map Prod.fst).Nodup := by
              rw [show ((k1, c1) :: classOf mid (eqKeyOf c1)) ++ (k2, c2) :: classOf post (eqKeyOf c1)
                  = classOf S (eqKeyOf c1) from by rw [hshape]; simp]
              exact hndcls
            exact not_mem_of_nodupFst_decomp hnd2
          unfold leftBest at hlbv
          rw [hshape] at hlbv
          simp only at hlbv
          have hrb := Option.some_inj.mp hlbv
          exact runBest_avoid (k1, c1) (k2, c2) (classOf mid (eqKeyOf c1)) (classOf post (eqKeyOf c1))
            ⟨(k1, c1), List.mem_cons_self _ _, by simp only; omega⟩
            (by simpa using hnot.1) hnot.2 hrb
        | cons a0 as0 =>
          have hshape : classOf S (eqKeyOf c1)
              = a0 :: ((as0 ++ (k1, c1) :: classOf mid (eqKeyOf c1)) ++ (k2, c2) :: classOf post (eqKeyOf c1)) := by
            rw [hclseq, hA]
            simp
          have hnot : (k2, c2) ∉ a0 :: (as0 ++ (k1, c1) :: classOf mid (eqKeyOf c1))
              ∧ (k2, c2) ∉ classOf post (eqKeyOf c1) := by
            have hnd2 : (((a0 :: (as0 ++ (k1, c1) :: classOf mid (eqKeyOf c1))) ++ (k2, c2) :: classOf post (eqKeyOf c1)).map Prod.fst).Nodup := by
              rw [show (a0 :: (as0 ++ (k1, c1) :: classOf mid (eqKeyOf c1))) ++ (k2, c2) :: classOf post (eqKeyOf c1)
                  = classOf S (eqKeyOf c1) from by rw [hshape]; simp]
              exact hndcls
            exact not_mem_of_nodupFst_decomp hnd2
          unfold leftBest at hlbv
          rw [hshape] at hlbv
          simp only at hlbv
          have hrb := Option.some_inj.mp hlbv
          exact runBest_avoid a0 (k2, c2) (as0 ++ (k1, c1) :: classOf mid (eqKeyOf c1)) (classOf post (eqKeyOf c1))
            ⟨(k1, c1), by simp, by simp only; omega⟩
            hnot.1 hnot.2 hrb
  refine ⟨?_, ?_, ?_⟩
  · intro hgt
    have hs := hsurv1false hgt
    constructor
    · exact (hm2 k1).mpr ⟨(k1, c1), hmem1, rfl, hs⟩
    · intro hcon
      rw [hm1] at hcon
      have hfil := (List.mem_filter.mp hcon).2
      rw [hs] at hfil
      simp at hfil
  · intro hng
    have hs := hsurv2false hng
    constructor
    · exact (hm2 k2).mpr ⟨(k2, c2), hmem2, rfl, hs⟩
    · intro hcon
      rw [hm1] at hcon
      have hfil := (List.mem_filter.mp hcon).2
      rw [hs] at hfil
      simp at hfil
  · intro hother
    have hpre : classOf pre (eqKeyOf c1) = [] := by
      unfold classOf
      rw [List.filter_eq_nil_iff]
      intro x hx
      simpa using hother x (by simp [hx])
    have hmid : classOf mid (eqKeyOf c1) = [] := by
      unfold classOf
      rw [List.filter_eq_nil_iff]
      intro x hx
      simpa using hother x (by simp [hx])
    have hpost : classOf post (eqKeyOf c1) = [] := by
      unfold classOf
      rw [List.filter_eq_nil_iff]
      intro x hx
      simpa using hother x (by simp [hx])
    have hclstwo : classOf S (eqKeyOf c1) = [(k1, c1), (k2, c2)] := by
      rw [hclseq, hpre, hmid, hpost]
      rfl
    have hlb2 : leftBest S (eqKeyOf c1) = some (pick (k1, c1) (k2, c2)) := by
      unfold leftBest
      rw [hclstwo]
      rfl
    constructor
    · intro hgt
      have hpicked : pick (k1, c1) (k2, c2) = (k2, c2) := by
        unfold pick
        rw [if_pos (by simp only; omega)]
      have hsurv : survivesIn S (k2, c2) = true := by
        rw [survivesIn_true_iff, show eqKeyOf (k2, c2).2 = eqKeyOf c2 from rfl, ← hkey,
          hlb2, hpicked]
        rfl
      rw [hm1]
      exact List.mem_filter.mpr ⟨hmem2, hsurv⟩
    · intro hng
      have hpicked : pick (k1, c1) (k2, c2) = (k1, c1) := by
        unfold pick
        rw [if_neg (by simp only; omega)]
      have hsurv : survivesIn S (k1, c1) = true := by
        rw [survivesIn_true_iff, show eqKeyOf (k1, c1).2 = eqKeyOf c1 from rfl,
          hlb2, hpicked]
        rfl
      rw [hm1]
      exact List.mem_filter.mpr ⟨hmem1, hsurv⟩

/-- Witness for C3: the spec's score-5 versus score-3 duplicate pair
(titles differing only by case and surrounding whitespace): the new
lower-scoring arrival is removed and the earlier record survives. -/
theorem deduplicate_pair_contract_witness :
    "b1" ∈ (deduplicate_citations [("a1", dupA), ("b1", dupB)]).2
    ∧ ("b1", dupB) ∉ (deduplicate_citations [("a1", dupA), ("b1", dupB)]).1
    ∧ ("a1", dupA) ∈ (deduplicate_citations [("a1", dupA), ("b1", dupB)]).1 := by
  have h := deduplicate_pair_contract [("a1", dupA), ("b1", dupB)] [] [] []
    "a1" "b1" dupA dupB rfl (by decide) (by decide)
  have hng : ¬(_citation_completeness dupB > _citation_completeness dupA) := by decide
  refine ⟨(h.2.1 hng).1, (h.2.1 hng).2, ?_⟩
  exact (h.2.2 (by intro x hx; simp at hx)).2 hng

/-! # Claim C8 -/

/-- Claim C8: `deduplicate_citations` is idempotent: after one call the
surviving records have pairwise distinct equality keys, so an
immediately following second call removes nothing and returns an empty
list. -/
theorem deduplicate_idempotent (S : Store) (hnd : (S.map Prod.fst).Nodup) :
    (∀ x y, x ∈ (deduplicate_citations S).1 → y ∈ (deduplicate_citations S).1 →
        eqKeyOf x.2 = eqKeyOf y.2 → x = y)
    ∧ (deduplicate_citations (deduplicate_citations S).1).2 = [] := by
  obtain ⟨hm1, hm2⟩ := dedup_master S hnd
  have hdistinct : ∀ x y, x ∈ (deduplicate_citations S).1 →
      y ∈ (deduplicate_citations S).1 → eqKeyOf x.2 = eqKeyOf y.2 → x = y := by
    intro x y hx hy hxy
    rw [hm1] at hx hy
    have hxs := survivesIn_true_iff.mp (List.mem_filter.mp hx).2
    have hys := survivesIn_true_iff.mp (List.mem_filter.mp hy).2
    rw [hxy] at hxs
    rw [hxs] at hys
    exact nodupFst_inj hnd (List.mem_filter.mp hx).1 (List.mem_filter.mp hy).1
      (Option.some_inj.mp hys)
  refine ⟨hdistinct, ?_⟩
  have hndS1 : (((deduplicate_citations S).1).map Prod.fst).Nodup := by
    rw [hm1]
    exact List.Nodup.sublist ((List.filter_sublist S).map Prod.fst) hnd
  obtain ⟨hq1, hq2⟩ := dedup_master (deduplicate_citations S).1 hndS1
  rw [List.eq_nil_iff_forall_not_mem]
  intro k hk
  rcases (hq2 k).mp hk with ⟨x, hx, hxk, hxs⟩
  have hcls : classOf (deduplicate_citations S).1 (eqKeyOf x.2) = [x] := by
    have hmemx : x ∈ classOf (deduplicate_citations S).1 (eqKeyOf x.2) :=
      mem_classOf.mpr ⟨hx, rfl⟩
    have hall : ∀ y ∈ classOf (deduplicate_citations S).1 (eqKeyOf x.2), y = x := by
      intro y hy
      obtain ⟨hyS, hyκ⟩ := mem_classOf.mp hy
      exact hdistinct y x hyS hx hyκ
    have hndcls : (classOf (deduplicate_citations S).1 (eqKeyOf x.2)).Nodup := by
      have h1 : ((classOf (deduplicate_citations S).1 (eqKeyOf x.2)).map Prod.fst).Nodup := by
        unfold classOf
        exact List.Nodup.sublist
          ((List.filter_sublist (deduplicate_citations S).1).map Prod.fst) hndS1
      exact h1.of_map
    cases hcl : classOf (deduplicate_citations S).1 (eqKeyOf x.2) with
    | nil =>
      rw [hcl] at hmemx
      simp at hmemx
    | cons a rest =>
      rw [hcl] at hall hndcls
      have ha : a = x := hall a (List.mem_cons_self _ _)
      have hrest : rest = [] := by
        rw [List.eq_nil_iff_forall_not_mem]
        intro b hb
        have hbx : b = x := hall b (List.mem_cons_of_mem _ hb)
        rw [List.nodup_cons] at hndcls
        have hax : a ∈ rest := by
          rw [ha, ← hbx]
          exact hb
        exact hndcls.1 hax
      rw [ha, hrest]
  have hsurv : survivesIn (deduplicate_citations S).1 x = true := by
    rw [survivesIn_true_iff]
    unfold leftBest
    rw [hcls]
    rfl
  rw [hsurv] at hxs
  simp at hxs

/-- Witness for C8: running deduplication twice on the duplicate pair
store; the second pass removes nothing. -/
theorem deduplicate_idempotent_witness :
    (deduplicate_citations (deduplicate_citations [("a1", dupA), ("b1", dupB)]).1).2 = [] :=
  (deduplicate_idempotent [("a1", dupA), ("b1", dupB)] (by decide)).2

/-! # Helper lemmas: Python strip primitives -/

theorem contains_false_not_mem {l : List Char} {c : Char}
    (h : l.contains c = false) : c ∉ l := by
  intro hm
  rw [List.contains_eq_any_beq] at h
  simp [List.any_eq_true] at h
  exact h c hm rfl

theorem dropEndWhile_concat_pos (p : Char → Bool) (l : List Char) (x : Char)
    (h : p x = true) : dropEndWhile p (l ++ [x]) = dropEndWhile p l := by
  unfold dropEndWhile
  rw [List.reverse_append]
  simp [List.dropWhile, h]

theorem dropEndWhile_concat_neg (p : Char → Bool) (l : List Char) (x : Char)
    (h : p x = false) : dropEndWhile p (l ++ [x]) = l ++ [x] := by
  unfold dropEndWhile
  rw [List.reverse_append]
  simp [List.dropWhile, h]

theorem stripChars_noop (p : Char → Bool) (l : List Char)
    (hh : ∀ c, l.head? = some c → p c = false)
    (hl : ∀ c, l.getLast? = some c → p c = false) : stripChars p l = l := by
  cases l with
  | nil => rfl
  | cons a m =>
    have ha : p a = false := hh a rfl
    unfold stripChars
    rw [List.dropWhile_cons, ha]
    simp only [Bool.false_eq_true, if_false]
    rcases List.eq_nil_or_concat (a :: m) with h | ⟨l2, x, hx⟩
    · simp at h
    · rw [List.concat_eq_append] at hx
      rw [hx]
      exact dropEndWhile_concat_neg p l2 x (hl x (by rw [hx]; exact List.getLast?_concat _))

theorem stripChars_wrap (p : Char → Bool) (a b : Char) (m : List Char)
    (hpa : p a = true) (hpb : p b = true)
    (hh : ∀ c, m.head? = some c → p c = false)
    (hl : ∀ c, m.getLast? = some c → p c = false) :
    stripChars p (a :: m ++ [b]) = m := by
  unfold stripChars
  rw [List.cons_append, List.dropWhile_cons, hpa]
  simp only [if_true]
  cases m with
  | nil =>
    simp [List.dropWhile, hpb, dropEndWhile]
  | cons m0 m' =>
    have hm0 : p m0 = false := hh m0 rfl
    rw [List.cons_append, List.dropWhile_cons, hm0]
    simp only [Bool.false_eq_true, if_false]
    rw [← List.cons_append, dropEndWhile_concat_pos p _ b hpb]
    rcases List.eq_nil_or_concat (m0 :: m') with h | ⟨l2, x, hx⟩
    · simp at h
    · rw [List.concat_eq_append] at hx
      rw [hx]
      exact dropEndWhile_concat_neg p l2 x (hl x (by rw [hx]; exact List.getLast?_concat _))

theorem takeWhile_prefix_stop (p : Char → Bool) (xs ys : List Char) (c : Char)
    (hxs : ∀ a ∈ xs, p a = true) (hc : p c = false) :
    (xs ++ c :: ys).takeWhile p = xs := by
  induction xs with
  | nil => simp [List.takeWhile, hc]
  | cons a as ih =>
    rw [List.cons_append, List.takeWhile_cons, hxs a (List.mem_cons_self _ _)]
    simp only [if_true]
    rw [ih (fun b hb => hxs b (List.mem_cons_of_mem _ hb))]

theorem dropWhile_prefix_stop (p : Char → Bool) (xs ys : List Char) (c : Char)
    (hxs : ∀ a ∈ xs, p a = true) (hc : p c = false) :
    (xs ++ c :: ys).dropWhile p = c :: ys := by
  induction xs with
  | nil => simp [List.dropWhile, hc]
  | cons a as ih =>
    rw [List.cons_append, List.dropWhile_cons, hxs a (List.mem_cons_self _ _)]
    simp only [if_true]
    exact ih (fun b hb => hxs b (List.mem_cons_of_mem _ hb))

theorem dropWhile_nostrip (p : Char → Bool) (l : List Char)
    (hh : ∀ c, l.head? = some c → p c = false) : l.dropWhile p = l := by
  cases l with
  | nil => rfl
  | cons a m =>
    rw [List.dropWhile_cons, hh a rfl]
    simp

/-! # Helper lemmas: split/join round trips -/

theorem singleton_infix_iff {c : Char} {l : List Char} : [c] <:+: l ↔ c ∈ l := by
  constructor
  · rintro ⟨s, t, rfl⟩
    simp
  · intro h
    rcases List.append_of_mem h with ⟨s, t, rfl⟩
    exact ⟨s, t, by simp⟩

theorem findSep_cons_eq (sep : List Char) (c : Char) (cs : List Char) :
    findSep sep (c :: cs)
      = if sep.isPrefixOf (c :: cs) then some ([], (c :: cs).drop sep.length)
        else
          match findSep sep cs with
          | none => none
          | some (b, a) => some (c :: b, a) := rfl

theorem findSep_none (sep : List Char) (l : List Char) (h : ¬sep <:+: l) :
    findSep sep l = none := by
  induction l with
  | nil => rfl
  | cons c cs ih =>
    rw [findSep_cons_eq]
    have hp : sep.isPrefixOf (c :: cs) = false := by
      cases hb : sep.isPrefixOf (c :: cs) with
      | false => rfl
      | true => exact absurd (List.isPrefixOf_iff_prefix.mp hb).isInfix h
    rw [hp]
    simp only [Bool.false_eq_true, if_false]
    rw [ih (fun hin => h (List.infix_cons hin))]

theorem findSep_boundary (sep x r : List Char) (hsep : sep ≠ [])
    (hnin : ¬sep <:+: x)
    (hbd : ∀ k, 1 ≤ k → k < sep.length → sep.take k <:+ x →
        ¬sep = sep.take k ++ sep.take (sep.length - k)) :
    findSep sep (x ++ sep ++ r) = some (x, r) := by
  induction x with
  | nil =>
    rw [List.nil_append]
    cases hsc : sep with
    | nil => exact absurd hsc hsep
    | cons s0 stail =>
      rw [show (s0 :: stail) ++ r = s0 :: (stail ++ r) from by simp, findSep_cons_eq,
        show s0 :: (stail ++ r) = (s0 :: stail) ++ r from by simp]
      rw [if_pos (List.isPrefixOf_iff_prefix.mpr (List.prefix_append _ _))]
      rw [List.drop_left]
  | cons c x' ih =>
    have hlist : (c :: x') ++ sep ++ r = c :: (x' ++ sep ++ r) := by simp
    rw [show c :: x' ++ sep ++ r = c :: (x' ++ sep ++ r) from hlist, findSep_cons_eq]
    have hpre : sep.isPrefixOf (c :: (x' ++ sep ++ r)) = false := by
      cases hb : sep.isPrefixOf (c :: (x' ++ sep ++ r)) with
      | false => rfl
      | true =>
        exfalso
        have hp := List.isPrefixOf_iff_prefix.mp hb
        rw [← hlist] at hp
        by_cases hlen : sep.length ≤ (c :: x').length
        · have hpx : sep <+: (c :: x') := by
            have h2 := List.prefix_iff_eq_take.mp hp
            rw [show (c :: x') ++ sep ++ r = (c :: x') ++ (sep ++ r) from by simp,
              List.take_append_of_le_length hlen] at h2
            exact List.prefix_iff_eq_take.mpr h2
          exact hnin hpx.isInfix
        · push_neg at hlen
          have hksucc : 1 ≤ (c :: x').length := by simp
          have h1 : sep = (c :: x') ++ sep.take (sep.length - (c :: x').length) := by
            have h2 := List.prefix_iff_eq_take.mp hp
            rw [show (c :: x') ++ sep ++ r = (c :: x') ++ (sep ++ r) from by simp,
              List.take_append_eq_append_take,
              List.take_of_length_le (by omega),
              List.take_append_of_le_length (by omega)] at h2
            exact h2
          have hx : c :: x' = sep.take (c :: x').length := by
            have h3 := congrArg (List.take (c :: x').length) h1
            rw [List.take_left] at h3
            exact h3.symm
          exact hbd (c :: x').length hksucc hlen (by rw [← hx]) (by rw [← hx]; exact h1)
    rw [hpre]
    simp only [Bool.false_eq_true, if_false]
    rw [ih (fun hin => hnin (List.infix_cons hin))
      (fun k h1 h2 hsuf => hbd k h1 h2 (hsuf.trans (List.suffix_cons c x')))]

theorem splitSepF_join (sep : List Char) (hsep : sep ≠ []) :
    ∀ (as : List (List Char)) (a : List Char),
      (∀ x ∈ a :: as, ¬sep <:+: x ∧ (∀ k, 1 ≤ k → k < sep.length → sep.take k <:+ x →
          ¬sep = sep.take k ++ sep.take (sep.length - k))) →
      ∀ fuel, (joinSep sep (a :: as)).length < fuel →
        splitSepF sep fuel (joinSep sep (a :: as)) = a :: as := by
  intro as
  induction as with
  | nil =>
    intro a hcond fuel hfuel
    cases fuel with
    | zero => omega
    | succ f =>
      show splitSepF sep (f + 1) (joinSep sep [a]) = [a]
      unfold splitSepF joinSep
      rw [findSep_none sep a (hcond a (List.mem_cons_self _ _)).1]
  | cons b bs ih =>
    intro a hcond fuel hfuel
    have hjoin : joinSep sep (a :: b :: bs) = a ++ sep ++ joinSep sep (b :: bs) := rfl
    cases fuel with
    | zero => omega
    | succ f =>
      unfold splitSepF
      rw [hjoin, findSep_boundary sep a (joinSep sep (b :: bs)) hsep
        (hcond a (List.mem_cons_self _ _)).1 (hcond a (List.mem_cons_self _ _)).2]
      dsimp only
      have hlen2 : (joinSep sep (b :: bs)).length < f := by
        rw [hjoin] at hfuel
        have hslen : 1 ≤ sep.length := List.length_pos.mpr hsep
        simp only [List.length_append] at hfuel
        omega
      rw [ih b (fun x hx => hcond x (List.mem_cons_of_mem _ hx)) f hlen2]

theorem splitLines_join (a : List Char) (as : List (List Char))
    (h : ∀ x ∈ a :: as, '\n' ∉ x) :
    splitLines (joinSep ['\n'] (a :: as)) = a :: as := by
  unfold splitLines pySplitSep
  apply splitSepF_join ['\n'] (by simp) as a ?_ _ (by omega)
  intro x hx
  constructor
  · intro hin
    exact h x hx (singleton_infix_iff.mp hin)
  · intro k h1 h2
    simp at h2
    omega

theorem splitAnd_join (a : List Char) (as : List (List Char))
    (h : ∀ x ∈ a :: as, ¬sepAnd <:+: x ∧ ¬(" and".data <:+ x)) :
    pySplitSep sepAnd (joinSep sepAnd (a :: as)) = a :: as := by
  unfold pySplitSep
  apply splitSepF_join sepAnd (by decide) as a ?_ _ (by omega)
  intro x hx
  refine ⟨(h x hx).1, ?_⟩
  intro k h1 h2 hsuf heq
  have h2' : k < 5 := by
    simpa [sepAnd] using h2
  interval_cases k
  · exact absurd heq (by decide)
  · exact absurd heq (by decide)
  · exact absurd heq (by decide)
  · apply (h x hx).2
    have htake : sepAnd.take 4 = " and".data := by decide
    rw [← htake]
    exact hsuf

/-! # Helper lemmas: field-line processing -/

theorem cleanLine_fieldLine (key v : List Char) (hkne : key ≠ [])
    (hk0 : ∀ c, key.head? = some c → isPyWs c = false) :
    cleanLine (fieldLine key v) = key ++ '=' :: '\x7b' :: v ++ ['\x7d'] := by
  unfold cleanLine fieldLine pyStripL
  have hstep1 : ([' ', ' '] ++ key ++ '=' :: '\x7b' :: v ++ ['\x7d', ',']).dropWhile isPyWs
      = key ++ '=' :: '\x7b' :: v ++ ['\x7d', ','] := by
    rw [show ([' ', ' '] ++ key ++ '=' :: '\x7b' :: v ++ ['\x7d', ','])
        = ' ' :: ' ' :: (key ++ '=' :: '\x7b' :: v ++ ['\x7d', ',']) from by simp]
    rw [List.dropWhile_cons, show isPyWs ' ' = true from by decide]
    simp only [if_true]
    rw [List.dropWhile_cons, show isPyWs ' ' = true from by decide]
    simp only [if_true]
    apply dropWhile_nostrip
    intro c hc
    cases hkc : key with
    | nil => exact absurd hkc hkne
    | cons k0 kt =>
      rw [hkc, show (k0 :: kt) ++ '=' :: '\x7b' :: v ++ ['\x7d', ',']
          = k0 :: (kt ++ '=' :: '\x7b' :: v ++ ['\x7d', ',']) from by simp] at hc
      rw [show (k0 :: (kt ++ '=' :: '\x7b' :: v ++ ['\x7d', ','])).head? = some k0 from rfl] at hc
      rw [← Option.some_inj.mp hc]
      exact hk0 k0 (by rw [hkc]; rfl)
  unfold stripChars
  rw [hstep1]
  have hstep2 : dropEndWhile isPyWs (key ++ '=' :: '\x7b' :: v ++ ['\x7d', ','])
      = key ++ '=' :: '\x7b' :: v ++ ['\x7d', ','] := by
    rw [show key ++ '=' :: '\x7b' :: v ++ ['\x7d', ',']
        = (key ++ '=' :: '\x7b' :: v ++ ['\x7d']) ++ [','] from by simp]
    rw [dropEndWhile_concat_neg isPyWs _ ',' (by decide)]
  rw [hstep2]
  rw [show key ++ '=' :: '\x7b' :: v ++ ['\x7d', ',']
      = (key ++ '=' :: '\x7b' :: v ++ ['\x7d']) ++ [','] from by simp]
  rw [dropEndWhile_concat_pos isComma _ ',' (by decide)]
  rw [show key ++ '=' :: '\x7b' :: v ++ ['\x7d']
      = (key ++ '=' :: '\x7b' :: v) ++ ['\x7d'] from by simp]
  rw [dropEndWhile_concat_neg isComma _ '\x7d' (by decide)]

theorem lineKey_fieldLine (key v : List Char) (hkne : key ≠ [])
    (hk0 : ∀ c, key.head? = some c → isPyWs c = false)
    (hkeq : ∀ a ∈ key, (!(a == '=')) = true)
    (hkstrip : stripChars isPyWs key = key) :
    lineKey (fieldLine key v) = key := by
  unfold lineKey
  rw [cleanLine_fieldLine key v hkne hk0]
  have ht := takeWhile_prefix_stop (fun a => !(a == '=')) key ('\x7b' :: v ++ ['\x7d'])
    '=' hkeq (by decide)
  rw [show key ++ '=' :: '\x7b' :: v ++ ['\x7d']
      = key ++ '=' :: ('\x7b' :: v ++ ['\x7d']) from by simp, ht]
  exact hkstrip

theorem lineValue_fieldLine (key v : List Char) (hkne : key ≠ [])
    (hk0 : ∀ c, key.head? = some c → isPyWs c = false)
    (hkeq : ∀ a ∈ key, (!(a == '=')) = true)
    (hv1 : ∀ c, v.head? = some c → edgeOkChar c = true)
    (hv2 : ∀ c, v.getLast? = some c → edgeOkChar c = true) :
    lineValue (fieldLine key v) = v := by
  unfold lineValue
  rw [cleanLine_fieldLine key v hkne hk0]
  have hd := dropWhile_prefix_stop (fun a => !(a == '=')) key ('\x7b' :: v ++ ['\x7d'])
    '=' hkeq (by decide)
  rw [show key ++ '=' :: '\x7b' :: v ++ ['\x7d']
      = key ++ '=' :: ('\x7b' :: v ++ ['\x7d']) from by simp, hd]
  rw [List.drop_one, List.tail_cons]
  have hstrip1 : pyStripL ('\x7b' :: v ++ ['\x7d']) = '\x7b' :: v ++ ['\x7d'] := by
    apply stripChars_noop
    · intro c hc
      rw [show ('\x7b' :: v ++ ['\x7d']).head? = some '\x7b' from rfl] at hc
      rw [← Option.some_inj.mp hc]
      decide
    · intro c hc
      rw [show '\x7b' :: v ++ ['\x7d'] = ('\x7b' :: v) ++ ['\x7d'] from by simp,
        List.getLast?_concat] at hc
      rw [← Option.some_inj.mp hc]
      decide
  rw [hstrip1]
  cases hvc : v with
  | nil =>
    decide
  | cons v0 vt =>
    have hbrace : stripChars isBrace ('\x7b' :: (v0 :: vt) ++ ['\x7d']) = v0 :: vt := by
      apply stripChars_wrap isBrace '\x7b' '\x7d' (v0 :: vt) (by decide) (by decide)
      · intro c hc
        have hv0 := hv1 c (by rw [hvc]; exact hc)
        simp only [edgeOkChar, Bool.and_eq_true] at hv0
        simpa using hv0.1
      · intro c hc
        have hvlast := hv2 c (by rw [hvc]; exact hc)
        simp only [edgeOkChar, Bool.and_eq_true] at hvlast
        simpa using hvlast.1
    rw [hbrace]
    apply stripChars_noop
    · intro c hc
      have hv0 := hv1 c (by rw [hvc]; exact hc)
      simp only [edgeOkChar, Bool.and_eq_true] at hv0
      simpa using hv0.2
    · intro c hc
      have hvlast := hv2 c (by rw [hvc]; exact hc)
      simp only [edgeOkChar, Bool.and_eq_true] at hvlast
      simpa using hvlast.2

theorem eq_mem_cleanLine_fieldLine (key v : List Char) (hkne : key ≠ [])
    (hk0 : ∀ c, key.head? = some c → isPyWs c = false) :
    '=' ∈ cleanLine (fieldLine key v) := by
  rw [cleanLine_fieldLine key v hkne hk0]
  simp

theorem processLine_title (f : BibFields) (v : List Char)
    (hv1 : ∀ c, v.head? = some c → edgeOkChar c = true)
    (hv2 : ∀ c, v.getLast? = some c → edgeOkChar c = true) :
    processLine f (fieldLine "title".data v) = { f with title := v } := by
  unfold processLine
  rw [if_pos (eq_mem_cleanLine_fieldLine _ v (by decide) (by decide))]
  rw [lineKey_fieldLine _ v (by decide) (by decide) (by decide) (by decide)]
  rw [lineValue_fieldLine _ v (by decide) (by decide) (by decide) hv1 hv2]
  rw [if_pos rfl]

theorem processLine_author (f : BibFields) (v : List Char)
    (hv1 : ∀ c, v.head? = some c → edgeOkChar c = true)
    (hv2 : ∀ c, v.getLast? = some c → edgeOkChar c = true) :
    processLine f (fieldLine "author".data v)
      = { f with authors := (pySplitSep sepAnd v).map pyStripL } := by
  unfold processLine
  rw [if_pos (eq_mem_cleanLine_fieldLine _ v (by decide) (by decide))]
  rw [lineKey_fieldLine _ v (by decide) (by decide) (by decide) (by decide)]
  rw [lineValue_fieldLine _ v (by decide) (by decide) (by decide) hv1 hv2]
  rw [if_neg (by decide), if_pos rfl]

theorem processLine_year (f : BibFields) (v : List Char)
    (hv1 : ∀ c, v.head? = some c → edgeOkChar c = true)
    (hv2 : ∀ c, v.getLast? = some c → edgeOkChar c = true) :
    processLine f (fieldLine "year".data v)
      = match pyIntL v with
        | some n => { f with year := n }
        | none => f := by
  unfold processLine
  rw [if_pos (eq_mem_cleanLine_fieldLine _ v (by decide) (by decide))]
  rw [lineKey_fieldLine _ v (by decide) (by decide) (by decide) (by decide)]
  rw [lineValue_fieldLine _ v (by decide) (by decide) (by decide) hv1 hv2]
  rw [if_neg (by decide), if_neg (by decide), if_pos rfl]

theorem processLine_preserves (f : BibFields) (line : List Char)
    (hkt : ¬lineKey line = "title".data)
    (hka : ¬lineKey line = "author".data)
    (hky : ¬lineKey line = "year".data) :
    (processLine f line).title = f.title
    ∧ (processLine f line).authors = f.authors
    ∧ (processLine f line).year = f.year := by
  unfold processLine
  by_cases he : '=' ∈ cleanLine line
  · rw [if_pos he]
    dsimp only
    rw [if_neg hkt, if_neg hka, if_neg hky]
    by_cases hj : lineKey line = "journal".data
    · rw [if_pos hj]
      exact ⟨rfl, rfl, rfl⟩
    · rw [if_neg hj]
      by_cases hd : lineKey line = "doi".data
      · rw [if_pos hd]
        exact ⟨rfl, rfl, rfl⟩
      · rw [if_neg hd]
        by_cases hep : lineKey line = "eprint".data
        · rw [if_pos hep]
          exact ⟨rfl, rfl, rfl⟩
        · rw [if_neg hep]
          exact ⟨rfl, rfl, rfl⟩
  · rw [if_neg he]
    exact ⟨rfl, rfl, rfl⟩

theorem processLine_closing (f : BibFields) : processLine f ['\x7d'] = f := by
  unfold processLine
  rw [if_neg (by decide)]

theorem foldl_processLine_preserves (L : List (List Char))
    (h : ∀ l ∈ L, ¬lineKey l = "title".data ∧ ¬lineKey l = "author".data
        ∧ ¬lineKey l = "year".data) :
    ∀ f, (L.foldl processLine f).title = f.title
      ∧ (L.foldl processLine f).authors = f.authors
      ∧ (L.foldl processLine f).year = f.year := by
  induction L with
  | nil => exact fun f => ⟨rfl, rfl, rfl⟩
  | cons l L' ih =>
    intro f
    rw [List.foldl_cons]
    obtain ⟨h1, h2, h3⟩ := h l (List.mem_cons_self _ _)
    obtain ⟨p1, p2, p3⟩ := processLine_preserves f l h1 h2 h3
    obtain ⟨q1, q2, q3⟩ := ih (fun x hx => h x (List.mem_cons_of_mem _ hx)) (processLine f l)
    exact ⟨q1.trans p1, q2.trans p2, q3.trans p3⟩

/-! # Helper lemmas: decimal representation round trip -/

/-- The characters a decimal digit expansion can contain. -/
theorem natDigitsF_mem : ∀ fuel n, n < fuel →
    ∀ c ∈ natDigitsF fuel n, c ∈ ['0', '1', '2', '3', '4', '5', '6', '7', '8', '9'] := by
  intro fuel
  induction fuel with
  | zero => omega
  | succ f ih =>
    intro n hn c hc
    unfold natDigitsF at hc
    by_cases h10 : n < 10
    · rw [if_pos h10] at hc
      rw [List.mem_singleton.mp hc]
      have hd : ∀ m, m < 10 → Nat.digitChar m ∈ ['0', '1', '2', '3', '4', '5', '6', '7', '8', '9'] := by
        decide
      exact hd n h10
    · rw [if_neg h10] at hc
      rcases List.mem_append.mp hc with h1 | h1
      · have hdiv : n / 10 < f := by
          have := Nat.div_lt_self (by omega : 0 < n) (by omega : 1 < 10)
          omega
        exact ih (n / 10) hdiv c h1
      · rw [List.mem_singleton.mp h1]
        have hd : ∀ m, m < 10 → Nat.digitChar m ∈ ['0', '1', '2', '3', '4', '5', '6', '7', '8', '9'] := by
          decide
        exact hd (n % 10) (Nat.mod_lt n (by omega))

theorem natDigitsF_ne_nil : ∀ fuel n, n < fuel → natDigitsF fuel n ≠ [] := by
  intro fuel
  cases fuel with
  | zero => omega
  | succ f =>
    intro n hn
    unfold natDigitsF
    by_cases h10 : n < 10
    · rw [if_pos h10]
      simp
    · rw [if_neg h10]
      simp

theorem natDigitsF_foldl : ∀ fuel n acc, n < fuel →
    (natDigitsF fuel n).foldl (fun a c => a * 10 + (c.toNat - 48)) acc
      = acc * 10 ^ (natDigitsF fuel n).length + n := by
  intro fuel
  induction fuel with
  | zero => omega
  | succ f ih =>
    intro n acc hn
    unfold natDigitsF
    by_cases h10 : n < 10
    · rw [if_pos h10]
      have hval : ∀ m, m < 10 → (Nat.digitChar m).toNat - 48 = m := by decide
      simp only [List.foldl_cons, List.foldl_nil, List.length_singleton, pow_one]
      rw [hval n h10]
    · rw [if_neg h10]
      have hdiv : n / 10 < f := by
        have := Nat.div_lt_self (by omega : 0 < n) (by omega : 1 < 10)
        omega
      rw [List.foldl_append]
      simp only [List.foldl_cons, List.foldl_nil]
      rw [ih (n / 10) acc hdiv]
      have hval : ∀ m, m < 10 → (Nat.digitChar m).toNat - 48 = m := by decide
      rw [hval (n % 10) (Nat.mod_lt n (by omega))]
      rw [List.length_append, List.length_singleton, pow_succ]
      have hmod := Nat.div_add_mod n 10
      set L := (natDigitsF f (n / 10)).length
      ring_nf
      omega

theorem parseNatDigits_natDigits (n : Nat) : parseNatDigits (natDigits n) = some n := by
  unfold parseNatDigits natDigits
  rw [if_pos ?_]
  · rw [natDigitsF_foldl (n + 1) n 0 (by omega)]
    simp
  · constructor
    · exact natDigitsF_ne_nil (n + 1) n (by omega)
    · rw [List.all_eq_true]
      intro c hc
      have hmem := natDigitsF_mem (n + 1) n (by omega) c hc
      have hdig : ∀ c ∈ ['0', '1', '2', '3', '4', '5', '6', '7', '8', '9'], c.isDigit = true := by
        decide
      exact hdig c hmem

theorem natDigits_mem (n : Nat) :
    ∀ c ∈ natDigits n, c ∈ ['0', '1', '2', '3', '4', '5', '6', '7', '8', '9'] :=
  natDigitsF_mem (n + 1) n (by omega)

theorem intRepr_mem (y : Int) :
    ∀ c ∈ intRepr y, c ∈ ['-', '0', '1', '2', '3', '4', '5', '6', '7', '8', '9'] := by
  intro c hc
  unfold intRepr at hc
  by_cases hy : y < 0
  · rw [if_pos hy] at hc
    rcases List.mem_cons.mp hc with h1 | h1
    · rw [h1]
      simp
    · have := natDigits_mem y.natAbs c h1
      simp at this ⊢
      tauto
  · rw [if_neg hy] at hc
    have := natDigits_mem y.toNat c hc
    simp at this ⊢
    tauto

theorem pyIntL_intRepr (y : Int) : pyIntL (intRepr y) = some y := by
  have hmem := intRepr_mem y
  have hnows : ∀ c, c ∈ ['-', '0', '1', '2', '3', '4', '5', '6', '7', '8', '9'] → isPyWs c = false := by
    decide
  unfold pyIntL
  have hne : intRepr y ≠ [] := by
    unfold intRepr
    by_cases hy : y < 0
    · rw [if_pos hy]
      simp
    · rw [if_neg hy]
      exact natDigitsF_ne_nil _ _ (by omega)
  have hstrip : pyStripL (intRepr y) = intRepr y := by
    apply stripChars_noop
    · intro c hc
      cases hir : intRepr y with
      | nil => exact absurd hir hne
      | cons a t =>
        rw [hir] at hc
        rw [← Option.some_inj.mp hc]
        exact hnows a (hmem a (by rw [hir]; exact List.mem_cons_self _ _))
    · intro c hc
      rcases List.eq_nil_or_concat (intRepr y) with h | ⟨l2, x, hx⟩
      · exact absurd h hne
      · rw [List.concat_eq_append] at hx
        rw [hx, List.getLast?_concat] at hc
        rw [← Option.some_inj.mp hc]
        exact hnows x (hmem x (by rw [hx]; simp))
  rw [hstrip]
  by_cases hy : y < 0
  · have hrep : intRepr y = '-' :: natDigits y.natAbs := by
      unfold intRepr
      rw [if_pos hy]
    rw [hrep]
    rw [show (match '-' :: natDigits y.natAbs with
        | [] => (none : Option Int)
        | c :: rest =>
          if c = '-' then (parseNatDigits rest).map (fun n => -(n : Int))
          else if c = '+' then (parseNatDigits rest).map (fun n => (n : Int))
          else (parseNatDigits (c :: rest)).map (fun n => (n : Int)))
        = if '-' = '-' then (parseNatDigits (natDigits y.natAbs)).map (fun n => -(n : Int))
          else if '-' = '+' then (parseNatDigits (natDigits y.natAbs)).map (fun n => (n : Int))
          else (parseNatDigits ('-' :: natDigits y.natAbs)).map (fun n => (n : Int)) from rfl]
    rw [if_pos rfl]
    rw [parseNatDigits_natDigits]
    show (some (-((y.natAbs : Nat) : Int)) : Option Int) = some y
    congr 1
    omega
  · have hrep : intRepr y = natDigits y.toNat := by
      unfold intRepr
      rw [if_neg hy]
    rw [hrep]
    cases hnd : natDigits y.toNat with
    | nil => exact absurd hnd (by rw [← hrep] at hnd ⊢; exact hne)
    | cons d0 dt =>
      have hd0 : d0 ∈ ['0', '1', '2', '3', '4', '5', '6', '7', '8', '9'] := by
        apply natDigits_mem y.toNat
        rw [hnd]
        exact List.mem_cons_self _ _
      have hd0m : ¬d0 = '-' := by
        intro hcon
        rw [hcon] at hd0
        simp at hd0
      have hd0p : ¬d0 = '+' := by
        intro hcon
        rw [hcon] at hd0
        simp at hd0
      rw [show (match d0 :: dt with
          | [] => (none : Option Int)
          | c :: rest =>
            if c = '-' then (parseNatDigits rest).map (fun n => -(n : Int))
            else if c = '+' then (parseNatDigits rest).map (fun n => (n : Int))
            else (parseNatDigits (c :: rest)).map (fun n => (n : Int)))
          = if d0 = '-' then (parseNatDigits dt).map (fun n => -(n : Int))
            else if d0 = '+' then (parseNatDigits dt).map (fun n => (n : Int))
            else (parseNatDigits (d0 :: dt)).map (fun n => (n : Int)) from rfl]
      rw [if_neg hd0m, if_neg hd0p, ← hnd, parseNatDigits_natDigits]
      show (some ((y.toNat : Nat) : Int) : Option Int) = some y
      congr 1
      omega

/-! # Helper lemmas: glue for the round-trip assembly -/

theorem mem_of_head?_some {l : List Char} {ch : Char} (h : l.head? = some ch) : ch ∈ l := by
  cases l with
  | nil => simp at h
  | cons a t =>
    rw [show (a :: t).head? = some a from rfl] at h
    rw [← Option.some_inj.mp h]
    exact List.mem_cons_self _ _

theorem mem_of_getLast?_some {l : List Char} {ch : Char} (h : l.getLast? = some ch) : ch ∈ l := by
  rw [← List.head?_reverse] at h
  have := mem_of_head?_some h
  simpa using this

theorem headOkB_head? {l : List Char} (h : headOkB l = true) :
    ∀ ch, l.head? = some ch → edgeOkChar ch = true := by
  intro ch hc
  cases l with
  | nil => simp at hc
  | cons a t =>
    rw [show (a :: t).head? = some a from rfl] at hc
    rw [← Option.some_inj.mp hc]
    exact h

theorem lastOkB_getLast? {l : List Char} (h : lastOkB l = true) :
    ∀ ch, l.getLast? = some ch → edgeOkChar ch = true := by
  intro ch hc
  rw [← List.head?_reverse] at hc
  exact headOkB_head? h ch hc

theorem newline_notin_fieldLine (key v : List Char) (hk : '\n' ∉ key) (hv : '\n' ∉ v) :
    '\n' ∉ fieldLine key v := by
  unfold fieldLine
  intro hmem
  rcases List.mem_append.mp hmem with h | h
  · rcases List.mem_append.mp h with h1 | h1
    · rcases List.mem_append.mp h1 with h2 | h2
      · exact absurd h2 (by decide)
      · exact hk h2
    · rcases List.mem_cons.mp h1 with h2 | h2
      · exact absurd h2 (by decide)
      · rcases List.mem_cons.mp h2 with h3 | h3
        · exact absurd h3 (by decide)
        · exact hv h3
  · exact absurd h (by decide)

theorem mem_ite_nil {α : Type} {b : Bool} {L : List α} {x : α}
    (h : x ∈ (if b = true then L else [])) : b = true ∧ x ∈ L := by
  by_cases hb : b = true
  · rw [if_pos hb] at h
    exact ⟨hb, h⟩
  · rw [if_neg hb] at h
    simp at h

theorem newline_notin_joinSep (sep : List Char) (hs : '\n' ∉ sep) :
    ∀ M : List (List Char), (∀ x ∈ M, '\n' ∉ x) → '\n' ∉ joinSep sep M := by
  intro M
  induction M with
  | nil => simp [joinSep]
  | cons x M' ih =>
    intro h
    cases M' with
    | nil => exact h x (List.mem_cons_self _ _)
    | cons y r =>
      intro hmem
      rcases List.mem_append.mp hmem with h1 | h1
      · rcases List.mem_append.mp h1 with h2 | h2
        · exact h x (List.mem_cons_self _ _) h2
        · exact hs h2
      · exact ih (fun z hz => h z (List.mem_cons_of_mem _ hz)) h1

theorem joinSep_head (sep : List Char) (x : List Char) (rest : List (List Char)) :
    ∃ T, joinSep sep (x :: rest) = x ++ T := by
  cases rest with
  | nil => exact ⟨[], by simp [joinSep]⟩
  | cons y r => exact ⟨sep ++ joinSep sep (y :: r), by simp [joinSep, List.append_assoc]⟩

theorem joinSep_concat (sep : List Char) :
    ∀ (M : List (List Char)) (z : List Char), ∃ F, joinSep sep (M ++ [z]) = F ++ z := by
  intro M
  induction M with
  | nil => exact fun z => ⟨[], by simp [joinSep]⟩
  | cons x M' ih =>
    intro z
    rcases ih z with ⟨F, hF⟩
    cases hM : M' ++ [z] with
    | nil => simp at hM
    | cons w ws =>
      refine ⟨x ++ sep ++ F, ?_⟩
      rw [show (x :: M') ++ [z] = x :: (M' ++ [z]) from by simp, hM]
      show x ++ sep ++ joinSep sep (w :: ws) = x ++ sep ++ F ++ z
      rw [← hM, hF]
      simp [List.append_assoc]

theorem string_mk_data (s : String) : (⟨s.data⟩ : String) = s := rfl

theorem data_ne_nil_of_not_isEmpty {s : String} (h : s.isEmpty = false) : s.data ≠ [] := by
  intro hd
  cases s with
  | mk d =>
    have hd2 : d = [] := hd
    subst hd2
    exact absurd h (by decide)

theorem map_id_of_invariant {α : Type} (f : α → α) :
    ∀ l : List α, (∀ a ∈ l, f a = a) → l.map f = l := by
  intro l
  induction l with
  | nil => intro _; rfl
  | cons a t ih =>
    intro h
    rw [List.map_cons, h a (List.mem_cons_self _ _),
      ih (fun x hx => h x (List.mem_cons_of_mem _ hx))]

/-! # Helper lemmas: round-trip assembly -/

theorem newline_notin_openingLine (c : Citation) (hck : '\n' ∉ c.citekey.data) :
    '\n' ∉ openingLine c := by
  unfold openingLine
  intro hmem
  rcases List.mem_append.mp hmem with h | h
  · rcases List.mem_append.mp h with h1 | h1
    · rcases List.mem_cons.mp h1 with h2 | h2
      · exact absurd h2 (by decide)
      · by_cases hj : truthyOpt c.journal
        · rw [if_pos hj] at h2
          exact absurd h2 (by decide)
        · rw [if_neg hj] at h2
          exact absurd h2 (by decide)
    · rcases List.mem_cons.mp h1 with h2 | h2
      · exact absurd h2 (by decide)
      · exact hck h2
  · exact absurd h (by decide)

theorem newline_notin_optLines (c : Citation)
    (hj : optNoNl c.journal = true) (hd : optNoNl c.doi = true)
    (hx : optNoNl c.arxiv_id = true) (hb : optNoNl c.ads_bibcode = true)
    (hu : optNoNl c.ads_url = true) (hp : optNoNl c.publisher_url = true) :
    ∀ l ∈ optLines c, '\n' ∉ l := by
  have hget : ∀ o : Option String, optNoNl o = true → '\n' ∉ (o.getD "").data := by
    intro o ho
    exact contains_false_not_mem (by simpa [optNoNl] using ho)
  intro l hl
  unfold optLines at hl
  rcases List.mem_append.mp hl with h | h
  · rcases List.mem_append.mp h with h | h
    · rcases List.mem_append.mp h with h | h
      · rcases List.mem_append.mp h with h | h
        · obtain ⟨_, h2⟩ := mem_ite_nil h
          rcases List.mem_cons.mp h2 with rfl | h3
          · exact newline_notin_fieldLine _ _ (by decide) (hget _ hj)
          · exact absurd h3 (by simp)
        · obtain ⟨_, h2⟩ := mem_ite_nil h
          rcases List.mem_cons.mp h2 with rfl | h3
          · exact newline_notin_fieldLine _ _ (by decide) (hget _ hd)
          · exact absurd h3 (by simp)
      · obtain ⟨_, h2⟩ := mem_ite_nil h
        rcases List.mem_cons.mp h2 with rfl | h3
        · exact newline_notin_fieldLine _ _ (by decide) (hget _ hx)
        · rcases List.mem_cons.mp h3 with rfl | h4
          · exact newline_notin_fieldLine _ _ (by decide) (by decide)
          · exact absurd h4 (by simp)
    · obtain ⟨_, h2⟩ := mem_ite_nil h
      rcases List.mem_cons.mp h2 with rfl | h3
      · apply newline_notin_fieldLine _ _ (by decide)
        unfold adsUrlValue
        by_cases hau : truthyOpt c.ads_url
        · rw [if_pos hau]
          exact hget _ hu
        · rw [if_neg hau]
          unfold adsDefaultUrl
          intro hm
          rcases List.mem_append.mp hm with h5 | h5
          · exact absurd h5 (by decide)
          · exact hget _ hb h5
      · exact absurd h3 (by simp)
  · obtain ⟨_, h2⟩ := mem_ite_nil h
    rcases List.mem_cons.mp h2 with rfl | h3
    · exact newline_notin_fieldLine _ _ (by decide) (hget _ hp)
    · exact absurd h3 (by simp)

theorem newline_notin_generateLines (c : Citation)
    (hck : '\n' ∉ c.citekey.data) (ht : '\n' ∉ c.title.data)
    (hau : '\n' ∉ joinAnd c.authors)
    (hj : optNoNl c.journal = true) (hd : optNoNl c.doi = true)
    (hx : optNoNl c.arxiv_id = true) (hb : optNoNl c.ads_bibcode = true)
    (hu : optNoNl c.ads_url = true) (hp : optNoNl c.publisher_url = true) :
    ∀ l ∈ generateLines c, '\n' ∉ l := by
  intro l hl
  unfold generateLines at hl
  rcases List.mem_cons.mp hl with rfl | hl
  · exact newline_notin_openingLine c hck
  rcases List.mem_cons.mp hl with rfl | hl
  · exact newline_notin_fieldLine _ _ (by decide) ht
  rcases List.mem_cons.mp hl with rfl | hl
  · exact newline_notin_fieldLine _ _ (by decide) hau
  rcases List.mem_cons.mp hl with rfl | hl
  · apply newline_notin_fieldLine _ _ (by decide)
    intro hm
    exact absurd (intRepr_mem c.year '\n' hm) (by decide)
  rcases List.mem_append.mp hl with h | h
  · exact newline_notin_optLines c hj hd hx hb hu hp l h
  · rcases List.mem_cons.mp h with rfl | h
    · decide
    · exact absurd h (by simp)

theorem generated_strip_noop (c : Citation) :
    pyStripL (joinSep ['\n'] (generateLines c)) = joinSep ['\n'] (generateLines c) := by
  apply stripChars_noop
  · intro ch hch
    rw [show (joinSep ['\n'] (generateLines c)).head? = some '@' from rfl] at hch
    rw [← Option.some_inj.mp hch]
    decide
  · intro ch hch
    obtain ⟨F, hF⟩ := joinSep_concat ['\n']
      (openingLine c :: fieldLine "title".data c.title.data
        :: fieldLine "author".data (joinAnd c.authors)
        :: fieldLine "year".data (intRepr c.year) :: optLines c) ['\x7d']
    rw [show generateLines c
        = (openingLine c :: fieldLine "title".data c.title.data
            :: fieldLine "author".data (joinAnd c.authors)
            :: fieldLine "year".data (intRepr c.year) :: optLines c) ++ [['\x7d']]
        from by simp [generateLines], hF, List.getLast?_concat] at hch
    rw [← Option.some_inj.mp hch]
    decide

theorem matchCitekey_generated (type ck : List Char)
    (htype : ∀ a ∈ type, (a.isAlphanum || a == '_') = true) (hne : type ≠ [])
    (hck : ck ≠ []) (hckc : ',' ∉ ck) :
    matchCitekey ('@' :: type ++ '\x7b' :: ck ++ [',']) = some ck := by
  have harr : ('@' :: type) ++ '\x7b' :: ck ++ [',']
      = '@' :: (type ++ '\x7b' :: (ck ++ [','])) := by simp
  rw [harr]
  have hkind : (type ++ '\x7b' :: (ck ++ [','])).takeWhile
      (fun c => c.isAlphanum || c == '_') = type :=
    takeWhile_prefix_stop _ type (ck ++ [',']) '\x7b' htype (by decide)
  have htf : type.isEmpty = false := by
    cases type with
    | nil => exact absurd rfl hne
    | cons a t => rfl
  have hckt : (ck ++ [',']).takeWhile (fun c => !(c == ',')) = ck := by
    apply takeWhile_prefix_stop _ ck [] ',' ?_ (by decide)
    intro a ha
    have hane : a ≠ ',' := fun h => hckc (h ▸ ha)
    simpa using hane
  have hckf : ck.isEmpty = false := by
    cases ck with
    | nil => exact absurd rfl hck
    | cons a t => rfl
  unfold matchCitekey
  show (if ((type ++ '\x7b' :: (ck ++ [','])).takeWhile
            (fun c => c.isAlphanum || c == '_')).isEmpty then none
        else
          match (type ++ '\x7b' :: (ck ++ [','])).drop
              ((type ++ '\x7b' :: (ck ++ [','])).takeWhile
                (fun c => c.isAlphanum || c == '_')).length with
          | '\x7b' :: rest2 =>
            if (rest2.takeWhile (fun c => !(c == ','))).isEmpty then none
            else
              match rest2.drop (rest2.takeWhile (fun c => !(c == ','))).length with
              | ',' :: _ => some (rest2.takeWhile (fun c => !(c == ',')))
              | _ => none
          | _ => none) = some ck
  rw [hkind, htf]
  simp only [Bool.false_eq_true, if_false]
  rw [List.drop_left]
  show (if ((ck ++ [',']).takeWhile (fun c => !(c == ','))).isEmpty then none
        else
          match (ck ++ [',']).drop
              ((ck ++ [',']).takeWhile (fun c => !(c == ','))).length with
          | ',' :: _ => some ((ck ++ [',']).takeWhile (fun c => !(c == ',')))
          | _ => none) = some ck
  rw [hckt, hckf]
  simp only [Bool.false_eq_true, if_false]
  rw [List.drop_left]
  rfl

theorem create_eq_of_split (t : String) (l0 : List Char) (tail : List (List Char))
    (ck : List Char)
    (hs : splitLines (pyStripL t.data) = l0 :: tail)
    (hm : matchCitekey l0 = some ck)
    (hguard : (ck.isEmpty || (tail.foldl processLine initFields).title.isEmpty
        || (tail.foldl processLine initFields).authors.isEmpty
        || ((tail.foldl processLine initFields).year == 0)) = false) :
    create_citation_from_bibtex t = some {
      citekey := ⟨ck⟩
      title := ⟨(tail.foldl processLine initFields).title⟩
      authors := (tail.foldl processLine initFields).authors.map (fun a => (⟨a⟩ : String))
      year := (tail.foldl processLine initFields).year
      journal := (tail.foldl processLine initFields).journal.map (fun j => (⟨j⟩ : String))
      doi := (tail.foldl processLine initFields).doi.map (fun d => (⟨d⟩ : String))
      arxiv_id := (tail.foldl processLine initFields).arxiv_id.map (fun a => (⟨a⟩ : String))
      bibtex_entry := t } := by
  unfold create_citation_from_bibtex
  rw [hs]
  dsimp only
  rw [hm]
  dsimp only
  rw [if_neg (by simp [hguard])]

theorem optLines_keys (c : Citation) :
    ∀ l ∈ optLines c ++ [['\x7d']],
      ¬lineKey l = "title".data ∧ ¬lineKey l = "author".data
        ∧ ¬lineKey l = "year".data := by
  intro l hl
  rcases List.mem_append.mp hl with h | h
  · unfold optLines at h
    rcases List.mem_append.mp h with h | h
    · rcases List.mem_append.mp h with h | h
      · rcases List.mem_append.mp h with h | h
        · rcases List.mem_append.mp h with h | h
          · obtain ⟨_, h2⟩ := mem_ite_nil h
            rcases List.mem_cons.mp h2 with rfl | h3
            · rw [lineKey_fieldLine "journal".data _ (by decide) (by decide) (by decide)
                (by decide)]
              exact ⟨by decide, by decide, by decide⟩
            · exact absurd h3 (by simp)
          · obtain ⟨_, h2⟩ := mem_ite_nil h
            rcases List.mem_cons.mp h2 with rfl | h3
            · rw [lineKey_fieldLine "doi".data _ (by decide) (by decide) (by decide)
                (by decide)]
              exact ⟨by decide, by decide, by decide⟩
            · exact absurd h3 (by simp)
        · obtain ⟨_, h2⟩ := mem_ite_nil h
          rcases List.mem_cons.mp h2 with rfl | h3
          · rw [lineKey_fieldLine "eprint".data _ (by decide) (by decide) (by decide)
              (by decide)]
            exact ⟨by decide, by decide, by decide⟩
          · rcases List.mem_cons.mp h3 with rfl | h4
            · rw [lineKey_fieldLine "archivePrefix".data _ (by decide) (by decide)
                (by decide) (by decide)]
              exact ⟨by decide, by decide, by decide⟩
            · exact absurd h4 (by simp)
      · obtain ⟨_, h2⟩ := mem_ite_nil h
        rcases List.mem_cons.mp h2 with rfl | h3
        · rw [lineKey_fieldLine "adsurl".data _ (by decide) (by decide) (by decide)
            (by decide)]
          exact ⟨by decide, by decide, by decide⟩
        · exact absurd h3 (by simp)
    · obtain ⟨_, h2⟩ := mem_ite_nil h
      rcases List.mem_cons.mp h2 with rfl | h3
      · rw [lineKey_fieldLine "url".data _ (by decide) (by decide) (by decide)
          (by decide)]
        exact ⟨by decide, by decide, by decide⟩
      · exact absurd h3 (by simp)
  · rcases List.mem_cons.mp h with rfl | h
    · exact ⟨by decide, by decide, by decide⟩
    · exact absurd h (by simp)

/-! # Claim C2 -/

/-- Claim C2 as stated is false: a valid record (non-empty citekey,
title, authors, non-zero year) with no cached entry whose title ends in
a closing brace generates a `title={a}}` line; the parser's
`strip('\x7b\x7d')` eats the brace, so the parsed title differs from the
original. -/
theorem parse_generate_counterexample :
    braceTitleRec.bibtex_entry = ""
    ∧ ¬braceTitleRec.title = ""
    ∧ (create_citation_from_bibtex (generateEntry braceTitleRec)).map Citation.title
        ≠ some braceTitleRec.title :=
  ⟨rfl, by decide, by decide⟩

/-- Claim C2 (amended): for every interchange-safe record `c` (required
fields non-falsy, values newline-free, citekey comma-free, title and
joined author list not starting or ending in a brace or quote, no author
containing or ending in the `" and "` separator, every author equal to
its own strip) with no cached
`bibtex_entry`, parsing the generated text succeeds and the parsed
record's `citekey`, `title`, `authors` and `year` equal those of `c`;
fields not representable in the interchange format are exempt. -/
theorem parse_generate_roundtrip (c : Citation)
    (hsafe : interchangeSafe c = true) (hbe : c.bibtex_entry = "") :
    ∃ r, create_citation_from_bibtex (generateEntry c) = some r
      ∧ r.citekey = c.citekey ∧ r.title = c.title
      ∧ r.authors = c.authors ∧ r.year = c.year := by
  unfold interchangeSafe at hsafe
  simp only [Bool.and_eq_true] at hsafe
  obtain ⟨⟨⟨⟨⟨⟨⟨⟨⟨⟨⟨⟨⟨⟨⟨⟨⟨h1, h2⟩, h3⟩, h4⟩, h5⟩, h6⟩, h7⟩, h8⟩, h9⟩, h10⟩, h11⟩,
    h12⟩, h13⟩, h14⟩, h15⟩, h16⟩, h17⟩, h18⟩ := hsafe
  have hcknn : '\n' ∉ c.citekey.data := contains_false_not_mem (by simpa using h3)
  have htnn : '\n' ∉ c.title.data := contains_false_not_mem (by simpa using h5)
  have hjnn : '\n' ∉ joinAnd c.authors := by
    unfold joinAnd
    apply newline_notin_joinSep sepAnd (by decide)
    intro x hx
    rcases List.mem_map.mp hx with ⟨a, ha, rfl⟩
    have hok := List.all_eq_true.mp h9 a ha
    unfold authorOkB at hok
    simp only [Bool.and_eq_true] at hok
    exact contains_false_not_mem (by simpa using hok.1.1.1)
  have hge : generateEntry c = _generate_basic_bibtex c := by
    unfold generateEntry
    rw [hbe, if_neg (by decide)]
  have hsplit : splitLines (pyStripL (_generate_basic_bibtex c).data) = generateLines c := by
    show splitLines (pyStripL (joinSep ['\n'] (generateLines c))) = generateLines c
    rw [generated_strip_noop c]
    have hgl : generateLines c = openingLine c
        :: (fieldLine "title".data c.title.data
            :: fieldLine "author".data (joinAnd c.authors)
            :: fieldLine "year".data (intRepr c.year)
            :: (optLines c ++ [['\x7d']])) := rfl
    rw [hgl]
    apply splitLines_join
    intro x hx
    refine newline_notin_generateLines c hcknn htnn hjnn h13 h14 h15 h16 h17 h18 x ?_
    rw [hgl]
    exact hx
  have hmck : matchCitekey (openingLine c) = some c.citekey.data := by
    unfold openingLine
    apply matchCitekey_generated
    · intro x hx
      by_cases hj : truthyOpt c.journal
      · rw [if_pos hj] at hx
        exact (by decide : ∀ x ∈ "article".data, (x.isAlphanum || x == '_') = true) x hx
      · rw [if_neg hj] at hx
        exact (by decide : ∀ x ∈ "misc".data, (x.isAlphanum || x == '_') = true) x hx
    · by_cases hj : truthyOpt c.journal
      · rw [if_pos hj]
        decide
      · rw [if_neg hj]
        decide
    · exact data_ne_nil_of_not_isEmpty (by simpa using h1)
    · exact contains_false_not_mem (by simpa using h2)
  obtain ⟨a, as, hauth⟩ : ∃ a as, c.authors = a :: as := by
    cases hA : c.authors with
    | nil =>
      rw [hA] at h8
      exact absurd h8 (by decide)
    | cons a as => exact ⟨a, as, rfl⟩
  have hsa0 : pySplitSep sepAnd (joinAnd c.authors) = c.authors.map String.data := by
    rw [hauth]
    show pySplitSep sepAnd (joinSep sepAnd (a.data :: as.map String.data))
        = a.data :: as.map String.data
    apply splitAnd_join
    intro x hx
    have hx2 : x ∈ (a :: as).map String.data := hx
    rcases List.mem_map.mp hx2 with ⟨b, hb, rfl⟩
    have hok := List.all_eq_true.mp h9 b (by rw [hauth]; exact hb)
    unfold authorOkB at hok
    simp only [Bool.and_eq_true] at hok
    exact ⟨by simpa using hok.1.1.2, by simpa using hok.1.2⟩
  have hsa : (pySplitSep sepAnd (joinAnd c.authors)).map pyStripL
      = c.authors.map String.data := by
    rw [hsa0]
    apply map_id_of_invariant
    intro x hx
    rcases List.mem_map.mp hx with ⟨b, hb, rfl⟩
    have hok := List.all_eq_true.mp h9 b hb
    unfold authorOkB at hok
    simp only [Bool.and_eq_true] at hok
    exact of_decide_eq_true hok.2
  have hyedge : ∀ ch ∈ intRepr c.year, edgeOkChar ch = true := by
    intro ch hm
    have h2m := intRepr_mem c.year ch hm
    fin_cases h2m <;> decide
  have hstep : (fieldLine "title".data c.title.data
      :: fieldLine "author".data (joinAnd c.authors)
      :: fieldLine "year".data (intRepr c.year)
      :: (optLines c ++ [['\x7d']])).foldl processLine initFields
      = (optLines c ++ [['\x7d']]).foldl processLine
          { title := c.title.data
            authors := (pySplitSep sepAnd (joinAnd c.authors)).map pyStripL
            year := c.year
            journal := none, doi := none, arxiv_id := none } := by
    rw [List.foldl_cons, List.foldl_cons, List.foldl_cons]
    rw [processLine_title _ _ (headOkB_head? h6) (lastOkB_getLast? h7)]
    rw [processLine_author _ _ (headOkB_head? h10) (lastOkB_getLast? h11)]
    rw [processLine_year _ _ (fun ch hc => hyedge ch (mem_of_head?_some hc))
      (fun ch hc => hyedge ch (mem_of_getLast?_some hc))]
    rw [pyIntL_intRepr]
    rfl
  obtain ⟨hFt, hFa, hFy⟩ := foldl_processLine_preserves (optLines c ++ [['\x7d']])
    (optLines_keys c)
    { title := c.title.data
      authors := (pySplitSep sepAnd (joinAnd c.authors)).map pyStripL
      year := c.year
      journal := none, doi := none, arxiv_id := none }
  have hckE : c.citekey.data.isEmpty = false := by
    cases hdd : c.citekey.data with
    | nil => exact absurd hdd (data_ne_nil_of_not_isEmpty (by simpa using h1))
    | cons x xs => rfl
  have htE : c.title.data.isEmpty = false := by
    cases hdd : c.title.data with
    | nil => exact absurd hdd (data_ne_nil_of_not_isEmpty (by simpa using h4))
    | cons x xs => rfl
  have haE : ((pySplitSep sepAnd (joinAnd c.authors)).map pyStripL).isEmpty = false := by
    rw [hsa, hauth]
    rfl
  have hyE : (c.year == 0) = false := by simpa using h12
  have hguard : (c.citekey.data.isEmpty
      || ((fieldLine "title".data c.title.data
          :: fieldLine "author".data (joinAnd c.authors)
          :: fieldLine "year".data (intRepr c.year)
          :: (optLines c ++ [['\x7d']])).foldl processLine initFields).title.isEmpty
      || ((fieldLine "title".data c.title.data
          :: fieldLine "author".data (joinAnd c.authors)
          :: fieldLine "year".data (intRepr c.year)
          :: (optLines c ++ [['\x7d']])).foldl processLine initFields).authors.isEmpty
      || (((fieldLine "title".data c.title.data
          :: fieldLine "author".data (joinAnd c.authors)
          :: fieldLine "year".data (intRepr c.year)
          :: (optLines c ++ [['\x7d']])).foldl processLine initFields).year == 0))
      = false := by
    rw [hstep, hFt, hFa, hFy]
    show (c.citekey.data.isEmpty || c.title.data.isEmpty
        || ((pySplitSep sepAnd (joinAnd c.authors)).map pyStripL).isEmpty
        || (c.year == 0)) = false
    rw [hckE, htE, haE, hyE]
    rfl
  have hs2 : splitLines (pyStripL (generateEntry c).data)
      = openingLine c :: (fieldLine "title".data c.title.data
          :: fieldLine "author".data (joinAnd c.authors)
          :: fieldLine "year".data (intRepr c.year)
          :: (optLines c ++ [['\x7d']])) := by
    rw [hge]
    exact hsplit
  have hmain := create_eq_of_split (generateEntry c) (openingLine c)
    (fieldLine "title".data c.title.data
      :: fieldLine "author".data (joinAnd c.authors)
      :: fieldLine "year".data (intRepr c.year)
      :: (optLines c ++ [['\x7d']]))
    c.citekey.data hs2 hmck hguard
  refine ⟨_, hmain, ?_, ?_, ?_, ?_⟩
  · exact string_mk_data c.citekey
  · rw [hstep, hFt]
  · rw [hstep, hFa]
    show ((pySplitSep sepAnd (joinAnd c.authors)).map pyStripL).map
        (fun a => (⟨a⟩ : String)) = c.authors
    rw [hsa, List.map_map]
    have hcomp : ((fun a => (⟨a⟩ : String)) ∘ String.data) = id := by
      funext s
      rfl
    rw [hcomp, List.map_id]
  · rw [hstep, hFy]

/-- Witness for C2 (amended): the Tully record is interchange-safe and
round-trips with its key fields intact. -/
theorem parse_generate_roundtrip_witness :
    interchangeSafe tullyRec = true ∧ tullyRec.bibtex_entry = ""
    ∧ ∃ r, create_citation_from_bibtex (generateEntry tullyRec) = some r
        ∧ r.citekey = tullyRec.citekey ∧ r.title = tullyRec.title
        ∧ r.authors = tullyRec.authors ∧ r.year = tullyRec.year :=
  ⟨by decide, rfl, parse_generate_roundtrip tullyRec (by decide) rfl⟩
